import Mathlib

/-!
Verification of the anayasaRAG retrieval-augmented query pipeline.

This file embeds the algorithmic core of the repository — the recursive
text segmenter (`src/chunking.py`), the article-number extractor, the
two retrieval engines (`src/query_engine.py`, `src/query_engine_ollama.py`),
the indexing identifier scheme (`src/indexing.py`) and the chat endpoint's
confidence computation (`app.py`) — as executable Lean definitions and
proves or refutes the specification's claims about them.

Conventions: Python strings are modelled as `List Char` (Python `len`
counts code points, as does `List.length` on `List Char`); floating point
distances and similarity scores are modelled as exact rationals; Python
exceptions are modelled with `Except`.
-/

namespace AnayasaRAG

/-- Characters treated as whitespace by Python's `str.strip` and by the
regex class `\s` (ASCII range; all corpus text handled here stays in it). -/
def pyWSChars : List Char := [' ', '\t', '\n', '\r', '\x0b', '\x0c']

/-- Whether a character is (Python) whitespace. -/
def isWS (c : Char) : Bool := pyWSChars.contains c

/-- Python `str.strip()`: remove whitespace from both ends. -/
def stripStr (t : List Char) : List Char :=
  ((t.dropWhile isWS).reverse.dropWhile isWS).reverse

/-- The non-whitespace characters of a text, in order. -/
def nonWS (t : List Char) : List Char := t.filter (fun c => !isWS c)

theorem length_dropWhile_le (p : Char → Bool) (t : List Char) :
    (t.dropWhile p).length ≤ t.length :=
  (List.dropWhile_suffix p).sublist.length_le

theorem stripStr_length_le (t : List Char) : (stripStr t).length ≤ t.length := by
  unfold stripStr
  calc ((t.dropWhile isWS).reverse.dropWhile isWS).reverse.length
      = ((t.dropWhile isWS).reverse.dropWhile isWS).length := List.length_reverse _
    _ ≤ (t.dropWhile isWS).reverse.length := length_dropWhile_le _ _
    _ = (t.dropWhile isWS).length := List.length_reverse _
    _ ≤ t.length := length_dropWhile_le _ _

theorem nonWS_eq_nil_of_all_ws (t : List Char) (h : ∀ c ∈ t, isWS c) :
    nonWS t = [] := by
  unfold nonWS
  rw [List.filter_eq_nil_iff]
  intro c hc
  simp [h c hc]

theorem dropWhile_eq_nil_imp {p : Char → Bool} (t : List Char)
    (h : t.dropWhile p = []) : ∀ c ∈ t, p c := by
  induction t with
  | nil => intro c hc; cases hc
  | cons a l ih =>
    intro c hc
    rw [List.dropWhile_cons] at h
    by_cases hp : p a
    · rw [if_pos hp] at h
      rcases List.mem_cons.mp hc with rfl | hc2
      · exact hp
      · exact ih h c hc2
    · rw [if_neg hp] at h
      cases h

theorem all_ws_of_stripStr_eq_nil (t : List Char) (h : stripStr t = []) :
    ∀ c ∈ t, isWS c := by
  unfold stripStr at h
  rw [List.reverse_eq_nil_iff] at h
  have h2 := dropWhile_eq_nil_imp _ h
  intro c hc
  by_cases hdrop : c ∈ t.dropWhile isWS
  · have : c ∈ (t.dropWhile isWS).reverse := List.mem_reverse.mpr hdrop
    exact h2 c this
  · -- c was dropped by the first dropWhile: every dropped char satisfies isWS
    have : t = t.takeWhile isWS ++ t.dropWhile isWS := (List.takeWhile_append_dropWhile _ _).symm
    rw [this] at hc
    rcases List.mem_append.mp hc with htake | hdrop2
    · exact List.mem_takeWhile_imp htake
    · exact absurd hdrop2 hdrop

theorem nonWS_eq_nil_of_stripStr_eq_nil (t : List Char) (h : stripStr t = []) :
    nonWS t = [] :=
  nonWS_eq_nil_of_all_ws t (all_ws_of_stripStr_eq_nil t h)

theorem nonWS_stripStr (t : List Char) : nonWS (stripStr t) = nonWS t := by
  have hsplit : t = t.takeWhile isWS ++ t.dropWhile isWS :=
    (List.takeWhile_append_dropWhile _ _).symm
  have htake : nonWS (t.takeWhile isWS) = [] :=
    nonWS_eq_nil_of_all_ws _ (fun c hc => List.mem_takeWhile_imp hc)
  -- strip = reverse (dropWhile isWS (reverse (dropWhile isWS t)))
  have hrev : ∀ u : List Char, nonWS u.reverse = (nonWS u).reverse := by
    intro u; unfold nonWS; exact (List.filter_reverse _ _)
  have hdropNon : ∀ u : List Char, nonWS (u.dropWhile isWS) = nonWS u := by
    intro u
    conv_rhs => rw [(List.takeWhile_append_dropWhile isWS u).symm]
    unfold nonWS
    rw [List.filter_append]
    have : (u.takeWhile isWS).filter (fun c => !isWS c) = [] :=
      nonWS_eq_nil_of_all_ws _ (fun c hc => List.mem_takeWhile_imp hc)
    rw [this, List.nil_append]
  unfold stripStr
  rw [hrev, hdropNon, hrev, List.reverse_reverse, hdropNon]

/-! ### Segmenter (src/chunking.py, SimpleRecursiveSplitter) -/

/-- One separator from `config.LEGAL_SEPARATORS`, together with the behaviour
of Python's `re.split` / `re.search` for that pattern (the regex library is
external to the repository, so its behaviour per pattern is a parameter of the
embedding; concrete instances used below implement specific patterns exactly).
`lit` is the pattern string itself, used by `_recursive_split` both for the
`separator.strip()` guard and as a fallback attachment; `splitFn` models
`re.split(pattern, text)` (for capture-group patterns the matched separator
text appears as its own part, as `re.split` does); `searchFn` models
`re.search(pattern, text)`, returning the text of the first match. -/
structure Sep where
  lit : List Char
  splitFn : List Char → List (List Char)
  searchFn : List Char → Option (List Char)

/-- The separator text `_recursive_split` re-attaches to a part
(src/chunking.py:120-129): the first match of the separator in the whole
current text if one exists, the pattern literal otherwise. -/
def attachOf (s : Sep) (t : List Char) : List Char := (s.searchFn t).getD s.lit

mutual

/-- `SimpleRecursiveSplitter._recursive_split` (src/chunking.py:77-147),
with the list of still-unused separators in place of `sep_index`; returns the
chunks this call appends to the accumulator, in order. -/
def recursive_split (chunkSize : Nat) (seps : List Sep) (text : List Char) :
    List (List Char) :=
  if text.length ≤ chunkSize ∨ seps.length = 0 then
    if stripStr text ≠ [] then [text] else []
  else
    match seps with
    | [] => []
    | sep :: rest =>
      let parts := sep.splitFn text
      if parts.length = 1 then recursive_split chunkSize rest text
      else split_loop chunkSize sep rest text parts.length parts 0 [] []
termination_by (seps.length, 1, 0)

/-- The part-reconstruction loop of `_recursive_split`
(src/chunking.py:108-147): `cur` is `current_chunk`, `chunks` the accumulator,
`j` the running `enumerate` index and `n = len(parts)`; `text` is the whole
text being split at this level (searched for the separator to re-attach). -/
def split_loop (chunkSize : Nat) (sep : Sep) (rest : List Sep)
    (text : List Char) (n : Nat) (ps : List (List Char)) (j : Nat)
    (cur : List Char) (chunks : List (List Char)) : List (List Char) :=
  match ps with
  | [] => if stripStr cur ≠ [] then chunks ++ [stripStr cur] else chunks
  | part :: ps2 =>
    if stripStr part = [] then
      split_loop chunkSize sep rest text n ps2 (j + 1) cur chunks
    else
      let pws := if j < n - 1 ∧ stripStr sep.lit ≠ [] then part ++ attachOf sep text
                 else part
      if cur.length + pws.length ≤ chunkSize then
        split_loop chunkSize sep rest text n ps2 (j + 1) (cur ++ pws) chunks
      else
        let chunks1 := if stripStr cur ≠ [] then chunks ++ [stripStr cur] else chunks
        if chunkSize < part.length then
          split_loop chunkSize sep rest text n ps2 (j + 1) []
            (chunks1 ++ recursive_split chunkSize rest part)
        else
          split_loop chunkSize sep rest text n ps2 (j + 1) pws chunks1
termination_by (rest.length + 1, 0, ps.length)

end

/-- `SimpleRecursiveSplitter.split_text` (src/chunking.py:63-75). The
configured `chunk_overlap` is never consulted by the splitting logic. -/
def split_text (chunkSize : Nat) (seps : List Sep) (text : List Char) :
    List (List Char) :=
  recursive_split chunkSize seps text

/-- Does `l` occur as a prefix of `t`? (helper for literal separators). -/
def startsWithL : List Char → List Char → Bool
  | [], _ => true
  | _ :: _, [] => false
  | a :: as, b :: bs => a = b && startsWithL as bs

/-- Does `l` occur as a contiguous substring of `t`? -/
def containsL (l : List Char) : List Char → Bool
  | [] => startsWithL l []
  | c :: rest => startsWithL l (c :: rest) || containsL l rest

/-- `re.split` for a plain literal pattern (no metacharacters, no groups):
split at every occurrence, keeping empty parts, as Python does. -/
def splitOnL (l t : List Char) : List (List Char) :=
  if _hl : l.length = 0 then [t]
  else
    match t with
    | [] => [[]]
    | c :: rest =>
      if startsWithL l (c :: rest) then [] :: splitOnL l ((c :: rest).drop l.length)
      else
        match splitOnL l rest with
        | [] => [[c]]
        | p :: ps => (c :: p) :: ps
termination_by t.length
decreasing_by
  all_goals simp only [List.length_drop, List.length_cons]
  all_goals omega

/-- A literal-text separator (used for the configured separators "\n\n", "\n"
and " ", on which the regex engine behaves as plain substring split, and the
first match of `re.search` is the literal itself). -/
def sepLit (l : List Char) : Sep :=
  { lit := l
    splitFn := splitOnL l
    searchFn := fun t => if containsL l t then some l else none }

/-- Dash variants accepted by the article-header patterns (`[-–—]`). -/
def dashChars : List Char := ['-', '–', '—']

/-- Match of the regex `\nMADDE \d+[-–—]` at the head of `t`: returns the
matched text and the remainder. `\d+` is greedy and the dash class that
follows cannot match a digit, so the digit run is exactly the maximal one. -/
def maddeMatchAt (t : List Char) : Option (List Char × List Char) :=
  if startsWithL "\nMADDE ".data t then
    let rest := t.drop 7
    let ds := rest.takeWhile Char.isDigit
    if ds = [] then none
    else
      match rest.dropWhile Char.isDigit with
      | [] => none
      | d :: r2 =>
        if d ∈ dashChars then some ("\nMADDE ".data ++ ds ++ [d], r2) else none
  else none

/-- Leftmost-match scan for `\nMADDE \d+[-–—]`: the text before the first
match, and the match with its remainder when one exists. -/
def maddeScan : List Char → List Char × Option (List Char × List Char)
  | [] => ([], none)
  | c :: rest =>
    match maddeMatchAt (c :: rest) with
    | some (m, r) => ([], some (m, r))
    | none =>
      let res := maddeScan rest
      (c :: res.1, res.2)

theorem maddeMatchAt_rest_lt {t m r : List Char}
    (h : maddeMatchAt t = some (m, r)) : r.length < t.length := by
  unfold maddeMatchAt at h
  split at h
  case isFalse => cases h
  case isTrue hs =>
    dsimp only at h
    split at h
    case isTrue => cases h
    case isFalse hds =>
      split at h
      case h_1 => cases h
      case h_2 d r2 hr =>
        split at h
        case isFalse => cases h
        case isTrue hd =>
          simp only [Option.some.injEq, Prod.mk.injEq] at h
          obtain ⟨-, h2⟩ := h
          subst h2
          have h1 : (d :: r2).length ≤ (t.drop 7).length := by
            rw [← hr]; exact length_dropWhile_le _ _
          simp only [List.length_cons, List.length_drop] at h1
          omega

theorem maddeScan_rest_lt {t p m r : List Char}
    (h : maddeScan t = (p, some (m, r))) : r.length < t.length := by
  induction t generalizing p with
  | nil => simp [maddeScan] at h
  | cons c rest ih =>
    unfold maddeScan at h
    split at h
    case h_1 m2 r2 hm =>
      simp only [Prod.mk.injEq, Option.some.injEq] at h
      obtain ⟨-, -, h3⟩ := h
      exact h3 ▸ maddeMatchAt_rest_lt hm
    case h_2 hm =>
      simp only [Prod.mk.injEq] at h
      have hlt : r.length < rest.length := ih (Prod.ext rfl h.2)
      simp only [List.length_cons]
      omega

/-- `re.split(r"(\nMADDE \d+[-–—])", text)`: because the pattern is one
capture group, every matched separator appears as its own part between the
surrounding texts, exactly as Python's `re.split` does for grouped patterns. -/
def maddeSplit (t : List Char) : List (List Char) :=
  match hsc : maddeScan t with
  | (p, none) => [p]
  | (p, some (m, r)) => p :: m :: maddeSplit r
termination_by t.length
decreasing_by
  exact maddeScan_rest_lt hsc

/-- `re.search(r"(\nMADDE \d+[-–—])", text)`: text of the leftmost match. -/
def maddeSearch (t : List Char) : Option (List Char) :=
  match maddeScan t with
  | (_, none) => none
  | (_, some (m, _)) => some m

/-- The first configured separator `r"(\nMADDE \d+[-–—])"` of
`config.LEGAL_SEPARATORS` (a raw-string pattern, so its literal text contains
a backslash-n escape, not a newline; its `.strip()` is non-empty). -/
def sepMadde : Sep :=
  { lit := "(\\nMADDE \\d+[-–—])".data
    splitFn := maddeSplit
    searchFn := maddeSearch }

mutual

/-- Specification device for the size-bound claim: the spans that
`_recursive_split` emits through its base case after exhausting every
separator while still exceeding `chunk_size` (src/chunking.py:87-90 with
`sep_index >= len(self.separators)`). It traverses the recursion of
`recursive_split` with the same state and collects exactly those leaves;
they are the "oversized atomic spans" the specification exempts from the
size bound. -/
def atomic_leaves (chunkSize : Nat) (seps : List Sep) (text : List Char) :
    List (List Char) :=
  if text.length ≤ chunkSize ∨ seps.length = 0 then
    if stripStr text ≠ [] ∧ chunkSize < text.length then [text] else []
  else
    match seps with
    | [] => []
    | sep :: rest =>
      let parts := sep.splitFn text
      if parts.length = 1 then atomic_leaves chunkSize rest text
      else atomic_loop chunkSize sep rest text parts.length parts 0 []
termination_by (seps.length, 1, 0)

/-- Loop companion of `atomic_leaves`, mirroring `split_loop`'s control flow
(same branch conditions and `cur` state) while collecting only the
separator-exhausted oversized leaves produced by its recursive calls. -/
def atomic_loop (chunkSize : Nat) (sep : Sep) (rest : List Sep)
    (text : List Char) (n : Nat) (ps : List (List Char)) (j : Nat)
    (cur : List Char) : List (List Char) :=
  match ps with
  | [] => []
  | part :: ps2 =>
    if stripStr part = [] then
      atomic_loop chunkSize sep rest text n ps2 (j + 1) cur
    else
      let pws := if j < n - 1 ∧ stripStr sep.lit ≠ [] then part ++ attachOf sep text
                 else part
      if cur.length + pws.length ≤ chunkSize then
        atomic_loop chunkSize sep rest text n ps2 (j + 1) (cur ++ pws)
      else
        if chunkSize < part.length then
          atomic_leaves chunkSize rest part ++
            atomic_loop chunkSize sep rest text n ps2 (j + 1) []
        else
          atomic_loop chunkSize sep rest text n ps2 (j + 1) pws
termination_by (rest.length + 1, 0, ps.length)

end

theorem stripStr_eq_nil_of_all_ws (t : List Char) (h : ∀ c ∈ t, isWS c) :
    stripStr t = [] := by
  unfold stripStr
  have h1 : t.dropWhile isWS = [] := List.dropWhile_eq_nil_iff.mpr h
  rw [h1]
  simp

theorem stripStr_ne_nil_iff (t : List Char) : stripStr t ≠ [] ↔ nonWS t ≠ [] := by
  constructor
  · intro hs hn
    have hall : ∀ c ∈ t, isWS c := by
      intro c hc
      by_contra hcw
      have : c ∈ nonWS t := by
        unfold nonWS
        exact List.mem_filter.mpr ⟨hc, by simp [hcw]⟩
      rw [hn] at this
      cases this
    exact hs (stripStr_eq_nil_of_all_ws t hall)
  · intro hn hs
    exact hn (nonWS_eq_nil_of_stripStr_eq_nil t hs)

theorem stripStr_stripStr_ne_nil {t : List Char} (h : stripStr t ≠ []) :
    stripStr (stripStr t) ≠ [] := by
  rw [stripStr_ne_nil_iff, nonWS_stripStr]
  exact (stripStr_ne_nil_iff t).mp h

theorem stripStr_nil : stripStr [] = [] := rfl

theorem split_loop_bound (cs A : Nat) (sep : Sep) (rest : List Sep)
    (text : List Char)
    (hatt : ∀ t, (attachOf sep t).length ≤ A)
    (hrs : ∀ part, ∀ c ∈ recursive_split cs rest part,
      stripStr c ≠ [] ∧ (c.length ≤ cs + A ∨ c ∈ atomic_leaves cs rest part)) :
    ∀ (ps : List (List Char)) (n j : Nat) (cur : List Char)
      (chunks : List (List Char)),
      (cur = [] ∨ cur.length ≤ cs + A) →
      ∀ c ∈ split_loop cs sep rest text n ps j cur chunks,
        c ∈ chunks ∨
          (stripStr c ≠ [] ∧
            (c.length ≤ cs + A ∨ c ∈ atomic_loop cs sep rest text n ps j cur)) := by
  intro ps
  induction ps with
  | nil =>
    intro n j cur chunks hcur c hc
    unfold split_loop at hc
    by_cases hsc : stripStr cur ≠ []
    · rw [if_pos hsc] at hc
      rcases List.mem_append.mp hc with h1 | h2
      · exact Or.inl h1
      · have hce : c = stripStr cur := by simpa using h2
        subst hce
        refine Or.inr ⟨stripStr_stripStr_ne_nil hsc, Or.inl ?_⟩
        rcases hcur with rfl | hlen
        · exact absurd stripStr_nil hsc
        · exact le_trans (stripStr_length_le cur) hlen
    · rw [if_neg hsc] at hc
      exact Or.inl hc
  | cons part ps2 ih =>
    intro n j cur chunks hcur c hc
    have hchunks1 : ∀ d, d ∈ (if stripStr cur ≠ [] then chunks ++ [stripStr cur] else chunks) →
        d ∈ chunks ∨ (stripStr d ≠ [] ∧ d.length ≤ cs + A) := by
      intro d hd
      by_cases hsc : stripStr cur ≠ []
      · rw [if_pos hsc] at hd
        rcases List.mem_append.mp hd with h1 | h2
        · exact Or.inl h1
        · have hde : d = stripStr cur := by simpa using h2
          subst hde
          refine Or.inr ⟨stripStr_stripStr_ne_nil hsc, ?_⟩
          rcases hcur with rfl | hlen
          · exact absurd stripStr_nil hsc
          · exact le_trans (stripStr_length_le cur) hlen
      · rw [if_neg hsc] at hd
        exact Or.inl hd
    unfold split_loop at hc
    by_cases hpart : stripStr part = []
    · rw [if_pos hpart] at hc
      rcases ih n (j+1) cur chunks hcur c hc with h1 | ⟨h2, h3 | h4⟩
      · exact Or.inl h1
      · exact Or.inr ⟨h2, Or.inl h3⟩
      · refine Or.inr ⟨h2, Or.inr ?_⟩
        unfold atomic_loop
        rw [if_pos hpart]
        exact h4
    · rw [if_neg hpart] at hc
      dsimp only at hc
      set pws := (if j < n - 1 ∧ stripStr sep.lit ≠ [] then part ++ attachOf sep text else part)
        with hpws
      have hpws_len : pws.length ≤ part.length + A := by
        rw [hpws]
        split
        · rw [List.length_append]
          exact Nat.add_le_add_left (hatt text) _
        · exact Nat.le_add_right _ _
      by_cases hfit : cur.length + pws.length ≤ cs
      · rw [if_pos hfit] at hc
        have hcur2 : (cur ++ pws) = [] ∨ (cur ++ pws).length ≤ cs + A := by
          right
          rw [List.length_append]
          omega
        rcases ih n (j+1) (cur ++ pws) chunks hcur2 c hc with h1 | ⟨h2, h3 | h4⟩
        · exact Or.inl h1
        · exact Or.inr ⟨h2, Or.inl h3⟩
        · refine Or.inr ⟨h2, Or.inr ?_⟩
          unfold atomic_loop
          rw [if_neg hpart]
          dsimp only
          rw [← hpws, if_pos hfit]
          exact h4
      · rw [if_neg hfit] at hc
        by_cases hbig : cs < part.length
        · rw [if_pos hbig] at hc
          rcases ih n (j+1) []
              ((if stripStr cur ≠ [] then chunks ++ [stripStr cur] else chunks) ++
                recursive_split cs rest part) (Or.inl rfl) c hc with h1 | ⟨h2, h3 | h4⟩
          · rcases List.mem_append.mp h1 with hch | hrec
            · rcases hchunks1 c hch with h | ⟨h2, h3⟩
              · exact Or.inl h
              · exact Or.inr ⟨h2, Or.inl h3⟩
            · rcases hrs part c hrec with ⟨h2, h3 | h4⟩
              · exact Or.inr ⟨h2, Or.inl h3⟩
              · refine Or.inr ⟨h2, Or.inr ?_⟩
                unfold atomic_loop
                rw [if_neg hpart]
                dsimp only
                rw [← hpws, if_neg hfit, if_pos hbig]
                exact List.mem_append.mpr (Or.inl h4)
          · exact Or.inr ⟨h2, Or.inl h3⟩
          · refine Or.inr ⟨h2, Or.inr ?_⟩
            unfold atomic_loop
            rw [if_neg hpart]
            dsimp only
            rw [← hpws, if_neg hfit, if_pos hbig]
            exact List.mem_append.mpr (Or.inr h4)
        · rw [if_neg hbig] at hc
          have hcur2 : pws = [] ∨ pws.length ≤ cs + A := by
            right
            omega
          rcases ih n (j+1) pws
              (if stripStr cur ≠ [] then chunks ++ [stripStr cur] else chunks) hcur2 c hc
            with h1 | ⟨h2, h3 | h4⟩
          · rcases hchunks1 c h1 with h | ⟨h2, h3⟩
            · exact Or.inl h
            · exact Or.inr ⟨h2, Or.inl h3⟩
          · exact Or.inr ⟨h2, Or.inl h3⟩
          · refine Or.inr ⟨h2, Or.inr ?_⟩
            unfold atomic_loop
            rw [if_neg hpart]
            dsimp only
            rw [← hpws, if_neg hfit, if_neg hbig]
            exact h4

theorem recursive_split_bound (cs A : Nat) :
    ∀ (seps : List Sep), (∀ s ∈ seps, ∀ t, (attachOf s t).length ≤ A) →
    ∀ text, ∀ c ∈ recursive_split cs seps text,
      stripStr c ≠ [] ∧ (c.length ≤ cs + A ∨ c ∈ atomic_leaves cs seps text) := by
  intro seps
  induction seps with
  | nil =>
    intro _ text c hc
    unfold recursive_split at hc
    rw [if_pos (show text.length ≤ cs ∨ ([] : List Sep).length = 0 from Or.inr rfl)] at hc
    by_cases hst : stripStr text ≠ []
    · rw [if_pos hst] at hc
      have hce : c = text := by simpa using hc
      subst hce
      refine ⟨hst, ?_⟩
      by_cases hlen : c.length ≤ cs
      · exact Or.inl (le_trans hlen (Nat.le_add_right _ _))
      · refine Or.inr ?_
        unfold atomic_leaves
        rw [if_pos (show c.length ≤ cs ∨ ([] : List Sep).length = 0 from Or.inr rfl),
          if_pos ⟨hst, Nat.lt_of_not_le hlen⟩]
        exact List.mem_singleton.mpr rfl
    · rw [if_neg hst] at hc
      cases hc
  | cons sep rest ih =>
    intro hA text c hc
    have hAsep : ∀ t, (attachOf sep t).length ≤ A :=
      fun t => hA sep (List.mem_cons_self _ _) t
    have hArest : ∀ s ∈ rest, ∀ t, (attachOf s t).length ≤ A :=
      fun s hs t => hA s (List.mem_cons_of_mem _ hs) t
    unfold recursive_split at hc
    by_cases hbase : text.length ≤ cs ∨ (sep :: rest).length = 0
    · rw [if_pos hbase] at hc
      have hlen : text.length ≤ cs := by
        rcases hbase with h | h
        · exact h
        · simp at h
      by_cases hst : stripStr text ≠ []
      · rw [if_pos hst] at hc
        have hce : c = text := by simpa using hc
        subst hce
        exact ⟨hst, Or.inl (le_trans hlen (Nat.le_add_right _ _))⟩
      · rw [if_neg hst] at hc
        cases hc
    · rw [if_neg hbase] at hc
      dsimp only at hc
      by_cases hone : (sep.splitFn text).length = 1
      · rw [if_pos hone] at hc
        rcases ih hArest text c hc with ⟨h1, h2 | h3⟩
        · exact ⟨h1, Or.inl h2⟩
        · refine ⟨h1, Or.inr ?_⟩
          unfold atomic_leaves
          rw [if_neg hbase]
          dsimp only
          rw [if_pos hone]
          exact h3
      · rw [if_neg hone] at hc
        have hloop := split_loop_bound cs A sep rest text hAsep (ih hArest)
          (sep.splitFn text) (sep.splitFn text).length 0 [] [] (Or.inl rfl) c hc
        rcases hloop with h1 | ⟨h2, h3 | h4⟩
        · cases h1
        · exact ⟨h2, Or.inl h3⟩
        · refine ⟨h2, Or.inr ?_⟩
          unfold atomic_leaves
          rw [if_neg hbase]
          dsimp only
          rw [if_neg hone]
          exact h4

/-- A separator is whitespace-clean when its pattern string strips to empty
(so `_recursive_split` never re-attaches it) and its split loses only
whitespace characters. The configured literal separators "\n\n", "\n" and
" " are whitespace-clean; the article-header and sentence patterns are not. -/
def WSClean (s : Sep) : Prop :=
  stripStr s.lit = [] ∧ ∀ t, nonWS (s.splitFn t).flatten = nonWS t

theorem startsWithL_append (l : List Char) :
    ∀ t, startsWithL l t = true → l ++ t.drop l.length = t := by
  induction l with
  | nil => intro t _; simp
  | cons a as ih =>
    intro t h
    cases t with
    | nil => simp [startsWithL] at h
    | cons b bs =>
      simp only [startsWithL, Bool.and_eq_true, decide_eq_true_eq] at h
      obtain ⟨hab, hsw⟩ := h
      subst hab
      simp only [List.length_cons, List.drop_succ_cons, List.cons_append,
        List.cons.injEq, true_and]
      exact ih bs hsw

theorem splitOnL_ne_nil (l t : List Char) : splitOnL l t ≠ [] := by
  unfold splitOnL
  split
  · simp
  · split
    · simp
    · split
      · simp
      · split
        · simp
        · simp

theorem splitOnL_flatten_nonWS_aux (l : List Char) (hws : ∀ c ∈ l, isWS c) :
    ∀ (N : Nat) (t : List Char), t.length ≤ N →
      nonWS (splitOnL l t).flatten = nonWS t := by
  intro N
  induction N with
  | zero =>
    intro t ht
    have hte : t = [] := List.eq_nil_of_length_eq_zero (Nat.le_zero.mp ht)
    subst hte
    unfold splitOnL
    by_cases hl0 : l.length = 0
    · rw [dif_pos hl0]; simp
    · rw [dif_neg hl0]; simp
  | succ N ihN =>
    intro t ht
    unfold splitOnL
    by_cases hl0 : l.length = 0
    · rw [dif_pos hl0]; simp
    · rw [dif_neg hl0]
      cases t with
      | nil => simp
      | cons c rest =>
        simp only [List.length_cons] at ht
        dsimp only
        by_cases hsw : startsWithL l (c :: rest) = true
        · rw [if_pos hsw]
          have hdlen : ((c :: rest).drop l.length).length ≤ N := by
            simp only [List.length_drop, List.length_cons]
            omega
          have hIH := ihN ((c :: rest).drop l.length) hdlen
          have happ := startsWithL_append l (c :: rest) hsw
          calc nonWS ([] :: splitOnL l ((c :: rest).drop l.length)).flatten
              = nonWS (splitOnL l ((c :: rest).drop l.length)).flatten := by
                simp
            _ = nonWS ((c :: rest).drop l.length) := hIH
            _ = nonWS l ++ nonWS ((c :: rest).drop l.length) := by
                rw [nonWS_eq_nil_of_all_ws l hws, List.nil_append]
            _ = nonWS (l ++ (c :: rest).drop l.length) := by
                unfold nonWS; rw [List.filter_append]
            _ = nonWS (c :: rest) := by rw [happ]
        · rw [if_neg hsw]
          have hrest : rest.length ≤ N := by omega
          have hIH := ihN rest hrest
          rcases hsp : splitOnL l rest with _ | ⟨p, ps⟩
          · exact absurd hsp (splitOnL_ne_nil l rest)
          · rw [hsp] at hIH
            simp only [List.flatten_cons] at hIH ⊢
            unfold nonWS at hIH ⊢
            simp only [List.cons_append, List.filter_cons]
            rw [hIH]

theorem sepLit_wsClean (l : List Char) (hws : ∀ c ∈ l, isWS c) :
    WSClean (sepLit l) :=
  ⟨stripStr_eq_nil_of_all_ws l hws,
   fun t => splitOnL_flatten_nonWS_aux l hws t.length t le_rfl⟩

theorem nonWS_append (a b : List Char) : nonWS (a ++ b) = nonWS a ++ nonWS b := by
  unfold nonWS; exact List.filter_append _ _

theorem split_loop_cover (cs : Nat) (sep : Sep) (rest : List Sep)
    (text : List Char) (hsep : stripStr sep.lit = [])
    (hrs : ∀ part, nonWS (recursive_split cs rest part).flatten = nonWS part) :
    ∀ (ps : List (List Char)) (n j : Nat) (cur : List Char)
      (chunks : List (List Char)),
      nonWS (split_loop cs sep rest text n ps j cur chunks).flatten =
        nonWS chunks.flatten ++ nonWS cur ++ nonWS ps.flatten := by
  intro ps
  induction ps with
  | nil =>
    intro n j cur chunks
    unfold split_loop
    by_cases hsc : stripStr cur ≠ []
    · rw [if_pos hsc]
      simp only [List.flatten_append, List.flatten_cons, List.flatten_nil,
        List.append_nil]
      rw [nonWS_append, nonWS_stripStr]
      simp [nonWS]
    · rw [if_neg hsc]
      push_neg at hsc
      rw [nonWS_eq_nil_of_stripStr_eq_nil cur hsc]
      simp [nonWS]
  | cons part ps2 ih =>
    intro n j cur chunks
    have hch1 : nonWS (if stripStr cur ≠ [] then chunks ++ [stripStr cur]
        else chunks).flatten = nonWS chunks.flatten ++ nonWS cur := by
      by_cases hsc : stripStr cur ≠ []
      · rw [if_pos hsc]
        simp only [List.flatten_append, List.flatten_cons, List.flatten_nil,
          List.append_nil]
        rw [nonWS_append, nonWS_stripStr]
      · rw [if_neg hsc]
        push_neg at hsc
        rw [nonWS_eq_nil_of_stripStr_eq_nil cur hsc, List.append_nil]
    unfold split_loop
    have hflat : nonWS (part :: ps2).flatten = nonWS part ++ nonWS ps2.flatten := by
      rw [List.flatten_cons, nonWS_append]
    by_cases hpart : stripStr part = []
    · rw [if_pos hpart, ih]
      rw [hflat, nonWS_eq_nil_of_stripStr_eq_nil part hpart, List.nil_append]
    · rw [if_neg hpart]
      dsimp only
      have hpws : (if j < n - 1 ∧ stripStr sep.lit ≠ [] then
          part ++ attachOf sep text else part) = part := by
        rw [if_neg]
        intro hand
        exact hand.2 hsep
      rw [hpws]
      by_cases hfit : cur.length + part.length ≤ cs
      · rw [if_pos hfit, ih, hflat, nonWS_append]
        simp [List.append_assoc]
      · rw [if_neg hfit]
        by_cases hbig : cs < part.length
        · rw [if_pos hbig, ih]
          simp only [List.flatten_append]
          rw [nonWS_append, hch1, hrs part, hflat]
          simp [nonWS, List.append_assoc]
        · rw [if_neg hbig, ih, hch1, hflat]
          simp [List.append_assoc]

theorem recursive_split_cover (cs : Nat) :
    ∀ (seps : List Sep), (∀ s ∈ seps, WSClean s) →
    ∀ text, nonWS (recursive_split cs seps text).flatten = nonWS text := by
  intro seps
  induction seps with
  | nil =>
    intro _ text
    unfold recursive_split
    rw [if_pos (show text.length ≤ cs ∨ ([] : List Sep).length = 0 from Or.inr rfl)]
    by_cases hst : stripStr text ≠ []
    · rw [if_pos hst]; simp
    · rw [if_neg hst]
      push_neg at hst
      rw [nonWS_eq_nil_of_stripStr_eq_nil text hst]
      simp [nonWS]
  | cons sep rest ih =>
    intro hcl text
    have hsep : WSClean sep := hcl sep (List.mem_cons_self _ _)
    have hrest : ∀ s ∈ rest, WSClean s :=
      fun s hs => hcl s (List.mem_cons_of_mem _ hs)
    unfold recursive_split
    by_cases hbase : text.length ≤ cs ∨ (sep :: rest).length = 0
    · rw [if_pos hbase]
      by_cases hst : stripStr text ≠ []
      · rw [if_pos hst]; simp
      · rw [if_neg hst]
        push_neg at hst
        rw [nonWS_eq_nil_of_stripStr_eq_nil text hst]
        simp [nonWS]
    · rw [if_neg hbase]
      dsimp only
      by_cases hone : (sep.splitFn text).length = 1
      · rw [if_pos hone]
        exact ih hrest text
      · rw [if_neg hone]
        rw [split_loop_cover cs sep rest text hsep.1 (ih hrest)
          (sep.splitFn text) (sep.splitFn text).length 0 [] []]
        simp only [List.flatten_nil]
        rw [hsep.2 text]
        simp [nonWS]

theorem attachOf_sepLit (l t : List Char) : attachOf (sepLit l) t = l := by
  unfold attachOf sepLit
  dsimp only
  cases hc : containsL l t <;> simp [hc]

/-- C4: for every input text, every chunk produced by the segmenter has
`len(chunk) ≤ chunk_size + A`, where `A` bounds the length of any re-attached
separator text, except the chunks that `_recursive_split` emits from an
atomic span after exhausting all remaining separators (`atomic_leaves`),
which may exceed the bound; and no produced chunk is empty after whitespace
trimming. -/
theorem claim_C4 (chunkSize A : Nat) (seps : List Sep) (text : List Char)
    (hA : ∀ s ∈ seps, ∀ t, (attachOf s t).length ≤ A) :
    ∀ c ∈ split_text chunkSize seps text,
      stripStr c ≠ [] ∧
        (c.length ≤ chunkSize + A ∨ c ∈ atomic_leaves chunkSize seps text) := by
  intro c hc
  exact recursive_split_bound chunkSize A seps hA text c hc

unseal recursive_split split_loop splitOnL in
/-- Witness for C4: splitting "abc defgh ij" at size 5 with the literal
separator " " (attachment length ≤ 1) produces the chunk "defgh", which is
non-empty after trimming and within the 5+1 bound. -/
theorem claim_C4_witness :
    stripStr "defgh".data ≠ [] ∧
      ("defgh".data.length ≤ 5 + 1 ∨
        "defgh".data ∈ atomic_leaves 5 [sepLit " ".data] "abc defgh ij".data) :=
  claim_C4 5 1 [sepLit " ".data] "abc defgh ij".data
    (by
      intro s hs t
      have hse : s = sepLit " ".data := by simpa using hs
      subst hse
      rw [attachOf_sepLit]
      decide)
    "defgh".data (by decide)

unseal recursive_split split_loop maddeSplit in
/-- C5 counterexample: the claim says concatenating the non-whitespace
characters of the chunks of `split_text` reproduces exactly the
non-whitespace characters of the input.  With the first configured separator
`r"(\nMADDE \d+[-–—])"` (a capture-group pattern) and chunk size 12, the
input "aaaa\nMADDE 1-bbbb\nMADDE 2-cc" is split into chunks whose
non-whitespace concatenation is "aaaaMADDE1-MADDE1-MADDE1-bbbbMADDE1-MADDE2-MADDE1-cc":
the re-attachment step appends the first match "\nMADDE 1-" to every non-final
part (including the separator parts themselves), duplicating separator text,
so the claimed equality fails. -/
theorem claim_C5_counterexample :
    nonWS (split_text 12 [sepMadde] "aaaa\nMADDE 1-bbbb\nMADDE 2-cc".data).flatten ≠
      nonWS "aaaa\nMADDE 1-bbbb\nMADDE 2-cc".data := by
  decide

/-- C5 (amended): non-whitespace coverage holds exactly for whitespace-clean
separators — those whose pattern text strips to empty (so the loop never
re-attaches separator text, which is the case for the configured literal
separators "\n\n", "\n" and " ") and whose split loses only whitespace.
For such separators, concatenating the chunks of `split_text` preserves the
input's non-whitespace characters exactly; for the non-whitespace patterns
(article headers, ". ") re-attachment may duplicate or drop separator text,
as the counterexample shows. -/
theorem claim_C5_amended (chunkSize : Nat) (seps : List Sep) (text : List Char)
    (hclean : ∀ s ∈ seps, WSClean s) :
    nonWS (split_text chunkSize seps text).flatten = nonWS text :=
  recursive_split_cover chunkSize seps hclean text

/-- Witness for the amended C5: with the literal "\n" separator at size 4,
splitting "ab cd\nef gh\n\nij" preserves the non-whitespace characters. -/
theorem claim_C5_amended_witness :
    nonWS (split_text 4 [sepLit "\n".data] "ab cd\nef gh\n\nij".data).flatten =
      nonWS "ab cd\nef gh\n\nij".data :=
  claim_C5_amended 4 [sepLit "\n".data] "ab cd\nef gh\n\nij".data
    (by
      intro s hs
      have hse : s = sepLit "\n".data := by simpa using hs
      subst hse
      exact sepLit_wsClean _ (by decide))

/-! ### Article number extraction (src/chunking.py, LegalChunker.extract_article_numbers) -/

/-- Match of `[Mm][Aa][Dd][Dd][Ee]\s+(\d+)` at the head of `t`: the captured
digit group and the remainder after the match. Both `\s+` and `\d+` are
greedy, and neither can backtrack successfully (a digit is not whitespace),
so the maximal runs are the only candidates. -/
def p1MatchAt (t : List Char) : Option (List Char × List Char) :=
  match t with
  | c0 :: c1 :: c2 :: c3 :: c4 :: rest =>
    if (c0 = 'M' || c0 = 'm') && (c1 = 'A' || c1 = 'a') && (c2 = 'D' || c2 = 'd') &&
        (c3 = 'D' || c3 = 'd') && (c4 = 'E' || c4 = 'e') then
      if rest.takeWhile isWS = [] then none
      else
        let r1 := rest.dropWhile isWS
        let ds := r1.takeWhile Char.isDigit
        if ds = [] then none else some (ds, r1.dropWhile Char.isDigit)
    else none
  | _ => none

/-- Match of `Madde\s*:\s*(\d+)` at the head of `t`. -/
def p2MatchAt (t : List Char) : Option (List Char × List Char) :=
  if startsWithL "Madde".data t then
    match (t.drop 5).dropWhile isWS with
    | ':' :: r2 =>
      let r3 := r2.dropWhile isWS
      let ds := r3.takeWhile Char.isDigit
      if ds = [] then none else some (ds, r3.dropWhile Char.isDigit)
    | _ => none
  else none

/-- Match of `GEÇİCİ\s+MADDE\s+(\d+)` at the head of `t`. -/
def p4MatchAt (t : List Char) : Option (List Char × List Char) :=
  if startsWithL "GEÇİCİ".data t then
    let r0 := t.drop 6
    if r0.takeWhile isWS = [] then none
    else
      let r1 := r0.dropWhile isWS
      if startsWithL "MADDE".data r1 then
        let r2 := r1.drop 5
        if r2.takeWhile isWS = [] then none
        else
          let r3 := r2.dropWhile isWS
          let ds := r3.takeWhile Char.isDigit
          if ds = [] then none else some (ds, r3.dropWhile Char.isDigit)
      else none
  else none

/-- Match of `^\s*(\d+)\s*[-–—]\s*` at a line-start position: the captured
digits, whether the next position is again a line start (the match's trailing
whitespace ends with a newline), and the remainder. -/
def p3MatchAt (t : List Char) : Option (List Char × Bool × List Char) :=
  let r1 := t.dropWhile isWS
  let ds := r1.takeWhile Char.isDigit
  if ds = [] then none
  else
    match (r1.dropWhile Char.isDigit).dropWhile isWS with
    | d :: r3 =>
      if d ∈ dashChars then
        let ws3 := r3.takeWhile isWS
        some (ds, decide (ws3.getLast? = some '\n'), r3.dropWhile isWS)
      else none
    | [] => none

theorem dropWhile_lt_of_takeWhile_ne_nil (p : Char → Bool) (l : List Char)
    (h : l.takeWhile p ≠ []) : (l.dropWhile p).length < l.length := by
  have hlen : (l.takeWhile p).length + (l.dropWhile p).length = l.length := by
    conv_rhs => rw [← List.takeWhile_append_dropWhile (p := p) (l := l)]
    rw [List.length_append]
  have hpos : 0 < (l.takeWhile p).length := List.length_pos.mpr h
  omega

theorem p1MatchAt_rest_lt {t g r : List Char}
    (h : p1MatchAt t = some (g, r)) : r.length < t.length := by
  unfold p1MatchAt at h
  split at h
  case h_2 => cases h
  case h_1 c0 c1 c2 c3 c4 rest =>
    split at h
    case isFalse => cases h
    case isTrue =>
      split at h
      case isTrue => cases h
      case isFalse =>
        dsimp only at h
        split at h
        case isTrue => cases h
        case isFalse hds =>
          simp only [Option.some.injEq, Prod.mk.injEq] at h
          obtain ⟨-, h2⟩ := h
          subst h2
          have h3 := dropWhile_lt_of_takeWhile_ne_nil Char.isDigit
            (rest.dropWhile isWS) hds
          have h4 := length_dropWhile_le isWS rest
          simp only [List.length_cons]
          omega

theorem p2MatchAt_rest_lt {t g r : List Char}
    (h : p2MatchAt t = some (g, r)) : r.length < t.length := by
  unfold p2MatchAt at h
  split at h
  case isFalse => cases h
  case isTrue =>
    split at h
    case h_2 => cases h
    case h_1 r2 heq =>
      dsimp only at h
      split at h
      case isTrue => cases h
      case isFalse hds =>
        simp only [Option.some.injEq, Prod.mk.injEq] at h
        obtain ⟨-, h2⟩ := h
        subst h2
        have h3 := dropWhile_lt_of_takeWhile_ne_nil Char.isDigit
          (r2.dropWhile isWS) hds
        have h4 := length_dropWhile_le isWS r2
        have h5 : (':' :: r2).length ≤ (t.drop 5).length := by
          rw [← heq]; exact length_dropWhile_le _ _
        have h6 : (t.drop 5).length ≤ t.length := by
          simp only [List.length_drop]; omega
        simp only [List.length_cons] at h5
        omega

theorem p4MatchAt_rest_lt {t g r : List Char}
    (h : p4MatchAt t = some (g, r)) : r.length < t.length := by
  unfold p4MatchAt at h
  split at h
  case isFalse => cases h
  case isTrue =>
    dsimp only at h
    split at h
    case isTrue => cases h
    case isFalse hws1 =>
      split at h
      case isFalse => cases h
      case isTrue =>
        split at h
        case isTrue => cases h
        case isFalse hws2 =>
          split at h
          case isTrue => cases h
          case isFalse hds =>
            simp only [Option.some.injEq, Prod.mk.injEq] at h
            obtain ⟨-, h2⟩ := h
            subst h2
            have h3 := dropWhile_lt_of_takeWhile_ne_nil Char.isDigit
              (((((t.drop 6).dropWhile isWS).drop 5).dropWhile isWS)) hds
            have h4 := length_dropWhile_le isWS (((t.drop 6).dropWhile isWS).drop 5)
            have h5 : (((t.drop 6).dropWhile isWS).drop 5).length ≤
                ((t.drop 6).dropWhile isWS).length := by
              simp only [List.length_drop]; omega
            have h6 := length_dropWhile_le isWS (t.drop 6)
            have h7 := dropWhile_lt_of_takeWhile_ne_nil isWS (t.drop 6) hws1
            have h8 : (t.drop 6).length ≤ t.length := by
              simp only [List.length_drop]; omega
            omega

theorem p3MatchAt_rest_lt {t g : List Char} {b : Bool} {r : List Char}
    (h : p3MatchAt t = some (g, b, r)) : r.length < t.length := by
  unfold p3MatchAt at h
  dsimp only at h
  split at h
  case isTrue => cases h
  case isFalse hds =>
    split at h
    case h_2 => cases h
    case h_1 d r3 heq =>
      split at h
      case isFalse => cases h
      case isTrue =>
        simp only [Option.some.injEq, Prod.mk.injEq] at h
        obtain ⟨-, -, h2⟩ := h
        subst h2
        have h3 := length_dropWhile_le isWS r3
        have h4 : (d :: r3).length ≤ ((t.dropWhile isWS).dropWhile Char.isDigit).length := by
          rw [← heq]; exact length_dropWhile_le _ _
        have h5 := length_dropWhile_le Char.isDigit (t.dropWhile isWS)
        have h6 := length_dropWhile_le isWS t
        simp only [List.length_cons] at h4
        omega

/-- `re.finditer` for pattern 1: try a match at each position, emit the
captured group and continue after the match (non-overlapping). -/
def scanP1 : List Char → List (List Char)
  | [] => []
  | c :: rest =>
    match hm : p1MatchAt (c :: rest) with
    | some (g, r) => g :: scanP1 r
    | none => scanP1 rest
termination_by t => t.length
decreasing_by
  · exact p1MatchAt_rest_lt hm
  · simp

/-- `re.finditer` for pattern 2 (`Madde\s*:\s*(\d+)`). -/
def scanP2 : List Char → List (List Char)
  | [] => []
  | c :: rest =>
    match hm : p2MatchAt (c :: rest) with
    | some (g, r) => g :: scanP2 r
    | none => scanP2 rest
termination_by t => t.length
decreasing_by
  · exact p2MatchAt_rest_lt hm
  · simp

/-- `re.finditer` for pattern 4 (`GEÇİCİ\s+MADDE\s+(\d+)`). -/
def scanP4 : List Char → List (List Char)
  | [] => []
  | c :: rest =>
    match hm : p4MatchAt (c :: rest) with
    | some (g, r) => g :: scanP4 r
    | none => scanP4 rest
termination_by t => t.length
decreasing_by
  · exact p4MatchAt_rest_lt hm
  · simp

/-- `re.finditer` with `re.MULTILINE` for pattern 3 (`^\s*(\d+)\s*[-–—]\s*`):
a match is attempted only where `^` asserts — at the string start
(`atStart = true` initially) or immediately after a newline; after a match
the flag reflects whether the match's last consumed character is a newline. -/
def scanP3 (t : List Char) (atStart : Bool) : List (List Char) :=
  match t with
  | [] => []
  | c :: rest =>
    if atStart then
      match hm : p3MatchAt (c :: rest) with
      | some (g, ls, r) => g :: scanP3 r ls
      | none => scanP3 rest (c = '\n')
    else scanP3 rest (c = '\n')
termination_by t.length
decreasing_by
  · exact p3MatchAt_rest_lt hm
  · simp
  · simp

/-- The dedup-by-value loop of `extract_article_numbers`
(src/chunking.py:272-278): keep the first occurrence of each value. -/
def dedupFirst : List (List Char) → List (List Char) → List (List Char)
  | [], _ => []
  | g :: gs, seen => if g ∈ seen then dedupFirst gs seen else g :: dedupFirst gs (g :: seen)

/-- `LegalChunker.extract_article_numbers` (src/chunking.py:251-280): all
matches of the four prioritized patterns, in pattern order then text order,
deduplicated by value while preserving first-seen order. -/
def extract_article_numbers (text : List Char) : List String :=
  (dedupFirst (scanP1 text ++ scanP2 text ++ scanP3 text true ++ scanP4 text) []).map
    String.mk

theorem dedupFirst_not_mem_seen :
    ∀ (gs seen : List (List Char)), ∀ g ∈ dedupFirst gs seen, g ∉ seen := by
  intro gs
  induction gs with
  | nil => intro seen g hg; cases hg
  | cons a gs ih =>
    intro seen g hg
    unfold dedupFirst at hg
    split at hg
    case isTrue => exact ih seen g hg
    case isFalse hna =>
      rcases List.mem_cons.mp hg with rfl | h2
      · exact hna
      · intro hs
        exact ih (a :: seen) _ h2 (List.mem_cons_of_mem _ hs)

theorem dedupFirst_nodup :
    ∀ (gs seen : List (List Char)), (dedupFirst gs seen).Nodup := by
  intro gs
  induction gs with
  | nil => intro seen; exact List.nodup_nil
  | cons a gs ih =>
    intro seen
    unfold dedupFirst
    split
    case isTrue => exact ih seen
    case isFalse =>
      refine List.nodup_cons.mpr ⟨?_, ih (a :: seen)⟩
      intro hmem
      exact dedupFirst_not_mem_seen gs (a :: seen) a hmem (List.mem_cons_self _ _)

theorem stringMk_injective : Function.Injective String.mk := by
  intro a b h
  injection h

unseal scanP1 scanP2 scanP3 scanP4 in
/-- C6: article-number extraction is a pure function of the chunk text that
never returns duplicate values (dedup by value, first-seen order preserved by
construction), and on the specification's examples it returns exactly
`["76"]` for a text beginning "MADDE 76 ..." and `["4", "5"]` for a text
containing "MADDE 4 ... MADDE 5 ...". -/
theorem claim_C6 :
    (∀ t : List Char, (extract_article_numbers t).Nodup) ∧
      extract_article_numbers "MADDE 76 ...".data = ["76"] ∧
      extract_article_numbers "MADDE 4 ... MADDE 5 ...".data = ["4", "5"] := by
  refine ⟨?_, by decide, by decide⟩
  intro t
  exact (dedupFirst_nodup _ []).map stringMk_injective

/-! ### Retrieval engines (src/query_engine_ollama.py and src/query_engine.py) -/

deriving instance DecidableEq for Except

/-- Metadata of an index entry. `VectorDBIndexer.index_chunks`
(src/indexing.py:182-187) always stores exactly these four keys, as strings,
so query-time `metadata.get(key, default)` reads the stored value. -/
structure Meta where
  source : String
  page : String
  article_no : String
  chunk_id : String
deriving DecidableEq, Repr

/-- One nearest-neighbour hit `(document, metadata, distance)` from
`collection.query` (floating-point distance modelled as an exact rational). -/
structure Hit where
  doc : String
  meta : Meta
  distance : ℚ
deriving DecidableEq, Repr

/-- Python `str.lower()`. `Char.toLower` lowers the ASCII range; the
keyword tests below only involve characters on which the two agree
(ASCII letters and already-lowercase Turkish letters). -/
def lowerPy (s : String) : String := String.mk (s.data.map Char.toLower)

/-- Python's substring test `needle in hay`. -/
def containsSub (hay needle : String) : Bool := containsL needle.data hay.data

/-- Query expansion of `LegalRAGEngineOllama.retrieve`
(src/query_engine_ollama.py:109-115): the original query always first,
then at most one keyword-triggered rewrite (if/elif). -/
def expanded_queries_ollama (q : String) : List String :=
  let lq := lowerPy q
  if containsSub lq "milletvekili" && containsSub lq "yaş" then
    [q, "MADDE 76 seçilme yeterliliği"]
  else if containsSub lq "cumhurbaşkanı" && containsSub lq "seçim" then
    [q, "MADDE 101 cumhurbaşkanı seçim süresi"]
  else [q]

/-- Query expansion of `LegalRAGEngine.retrieve` (src/query_engine.py:117-126):
two independent keyword triggers, each appending two canned rephrasings. -/
def expanded_queries_qe (q : String) : List String :=
  let lq := lowerPy q
  [q] ++
    (if containsSub lq "yaş" && containsSub lq "seçil" then
      ["milletvekili seçilme şartları", "yaş şartı seçim"] else []) ++
    (if containsSub lq "cumhurbaşkanı" && containsSub lq "seçil" then
      ["cumhurbaşkanı seçim usulü", "cumhurbaşkanı nasıl belirlenir"] else [])

/-- The per-variant embed-then-query loop shared by both `retrieve` methods:
embed each expansion variant (a provider call that may raise, modelled with
`Except`) and concatenate the index's answers in variant order. The source's
guard `if results and results['documents'][0]` skips empty answers, which is
a no-op under concatenation. -/
def collect_hits {E H : Type} (embed : String → Except String E)
    (collQ : E → Nat → List H) (n : Nat) :
    List String → Except String (List H)
  | [] => .ok []
  | q :: qs => do
    let e ← embed q
    let rest ← collect_hits embed collQ n qs
    return collQ e n ++ rest

/-- The first-seen dedup of `LegalRAGEngineOllama.retrieve`
(src/query_engine_ollama.py:117-145): a hit whose metadata `chunk_id` was
already seen is dropped, keeping the first retrieved occurrence. -/
def dedup_hits : List Hit → List String → List Hit
  | [], _ => []
  | h :: hs, seen =>
    if h.meta.chunk_id ∈ seen then dedup_hits hs seen
    else h :: dedup_hits hs (h.meta.chunk_id :: seen)

/-- Stable insertion sort by ascending key, modelling Python's stable
`list.sort(key=...)` / `sorted(key=...)`. -/
def insertByKey {H : Type} (key : H → ℚ) (h : H) : List H → List H
  | [] => [h]
  | h2 :: hs => if key h < key h2 then h :: h2 :: hs else h2 :: insertByKey key h hs

/-- Stable sort by ascending key (insertion sort; stable because
`insertByKey` places the new element after existing equal keys... it places
it before the first strictly greater key, i.e. after all smaller-or-equal
ones, so earlier elements with equal keys stay first). -/
def sortByKey {H : Type} (key : H → ℚ) : List H → List H
  | [] => []
  | h :: hs => insertByKey key h (sortByKey key hs)

/-- `LegalRAGEngineOllama.retrieve` (src/query_engine_ollama.py:92-149):
expand, embed and query per variant, dedup by first-seen `chunk_id`, sort by
distance ascending, truncate to `top_k`. -/
def retrieve_ollama {E : Type} (embed : String → Except String E)
    (collQ : E → Nat → List Hit) (query : String) (topK : Nat) :
    Except String (List Hit) := do
  let all ← collect_hits embed collQ topK (expanded_queries_ollama query)
  return (sortByKey (fun h => h.distance) (dedup_hits all [])).take topK

/-- The context block of `LegalRAGEngineOllama.generate`
(src/query_engine_ollama.py:166-175): one labelled part per chunk,
1-based, joined with blank lines. -/
def context_str_ollama (chunks : List Hit) : String :=
  String.intercalate "\n\n"
    ((List.enumFrom 1 chunks).map
      (fun p => "[" ++ toString p.1 ++ "] ARTICLE " ++ p.2.meta.article_no ++
        ":\n" ++ p.2.doc))

/-- The Llama-3 chat prompt of `LegalRAGEngineOllama.generate`
(src/query_engine_ollama.py:179-189). -/
def build_prompt_ollama (query : String) (chunks : List Hit) : String :=
  "<|begin_of_text|><|start_header_id|>system<|end_header_id|>\n\n" ++
  "Sen bir Türk Anayasa Hukuku uzmanısın. Aşağıdaki anayasa maddelerine dayanarak soruyu Türkçe cevapla. Kesin ve net ol, ilgili madde numaralarını belirt. Hukuki olmayan yorumlardan kaçın.<|eot_id|><|start_header_id|>user<|end_header_id|>\n\n" ++
  "İLGİLİ ANAYASA MADDELERİ:\n" ++ context_str_ollama chunks ++
  "\n\nSORU: " ++ query ++
  "\n\nCevabını sadece verilen maddelerle sınırlı tut. Madde numaralarını belirt (örn: \"MADDE 76\").<|eot_id|><|start_header_id|>assistant<|end_header_id|>\n"

/-- `LegalRAGEngineOllama.generate` (src/query_engine_ollama.py:151-209):
the generation-provider call sits inside `try/except`, and an exception is
converted into the string "Error generating answer: ..." returned as the
answer — it does not propagate. -/
def generate_ollama (gen : String → Except String String) (query : String)
    (chunks : List Hit) : String :=
  match gen (build_prompt_ollama query chunks) with
  | .ok resp => String.mk (stripStr resp.data)
  | .error e => "Error generating answer: " ++ e

/-- Distance-to-similarity normalization of the Ollama query path
(src/query_engine_ollama.py:256) and of the chat endpoint's fallback
(src/app.py:195): `max(0.0, min(1.0, 1.0 - distance / 2.0))`. -/
def clampSim (d : ℚ) : ℚ := max 0 (min 1 (1 - d / 2))

/-- `text[:200] + "..." if len(text) > 200 else text`
(src/query_engine_ollama.py:262). -/
def preview200 (s : String) : String :=
  if 200 < s.data.length then String.mk (s.data.take 200) ++ "..." else s

/-- One formatted source of the Ollama query response
(src/query_engine_ollama.py:249-265). The stored metadata always carries the
`article_no`, `page` and `chunk_id` keys and every retrieved chunk carries a
`distance`, so the `.get` defaults are never taken. -/
structure OllamaSource where
  article_no : String
  page : String
  chunk_id : String
  text_preview : String
  distance : ℚ
  similarity : ℚ
deriving DecidableEq, Repr

def mk_source (h : Hit) : OllamaSource :=
  { article_no := h.meta.article_no
    page := h.meta.page
    chunk_id := h.meta.chunk_id
    text_preview := preview200 h.doc
    distance := h.distance
    similarity := clampSim h.distance }

/-- The structured result of `LegalRAGEngineOllama.query`. -/
structure OllamaResult where
  answer : String
  sources : List OllamaSource
  query : String
deriving DecidableEq, Repr

/-- The fixed no-grounding answer (src/query_engine_ollama.py:236). -/
def noGroundingMsg : String :=
  "Üzgünüm, veritabanında bu konuyla ilgili bilgi bulunamadı."

/-- `LegalRAGEngineOllama.query` (src/query_engine_ollama.py:211-271):
retrieve (embedding exceptions propagate), return the fixed no-grounding
payload when nothing was retrieved, otherwise generate and format sources. -/
def query_ollama {E : Type} (embed : String → Except String E)
    (collQ : E → Nat → List Hit) (gen : String → Except String String)
    (user_query : String) (topK : Nat) : Except String OllamaResult := do
  let chunks ← retrieve_ollama embed collQ user_query topK
  if chunks.isEmpty then
    return { answer := noGroundingMsg, sources := [], query := user_query }
  else
    return { answer := generate_ollama gen user_query chunks
             sources := chunks.map mk_source
             query := user_query }

/-- One raw hit of `LegalRAGEngine.retrieve` (src/query_engine.py:141-143):
the ChromaDB entry id, document, metadata and distance. -/
structure QEHit where
  id : String
  doc : String
  meta : Meta
  distance : ℚ
deriving DecidableEq, Repr

/-- One merged entry of `all_chunks` (src/query_engine.py:147-153); note the
similarity recorded here is `1 - distance`, not the clamped affine mapping
used in the Ollama path. -/
structure QEEntry where
  id : String
  text : String
  metadata : Meta
  distance : ℚ
  similarity : ℚ
deriving DecidableEq, Repr

def qe_entry (h : QEHit) : QEEntry :=
  { id := h.id
    text := h.doc
    metadata := h.meta
    distance := h.distance
    similarity := 1 - h.distance }

/-- One step of the `all_chunks` merge (src/query_engine.py:146-153): Python
dict update — absent key appends, a strictly smaller distance overwrites the
entry in place (insertion order preserved). -/
def qe_merge_step (m : List QEEntry) (h : QEHit) : List QEEntry :=
  match m.find? (fun e => e.id = h.id) with
  | none => m ++ [qe_entry h]
  | some e =>
    if h.distance < e.distance then
      m.map (fun e2 => if e2.id = h.id then qe_entry h else e2)
    else m

/-- The whole merge over the concatenated per-variant hits
(src/query_engine.py:129-153). -/
def qe_merge (hits : List QEHit) : List QEEntry := hits.foldl qe_merge_step []

/-- `LegalRAGEngine.retrieve` (src/query_engine.py:105-157): expand, embed
and query per variant with `n_results = top_k * 2`, merge keeping the best
(smallest) distance per entry id, sort ascending by distance, take `top_k`. -/
def retrieve_qe {E : Type} (embed : String → Except String E)
    (collQ : E → Nat → List QEHit) (query : String) (topK : Nat) :
    Except String (List QEEntry) := do
  let all ← collect_hits embed collQ (topK * 2) (expanded_queries_qe query)
  return (sortByKey (fun e => e.distance) (qe_merge all)).take topK

/-! ### Chat endpoint (src/app.py, chat) -/

/-- Python `str.strip()` on a `String`. -/
def pyStrip (s : String) : String := String.mk (stripStr s.data)

/-- Python `int()` on an exact rational: truncation toward zero. -/
def pyInt (q : ℚ) : ℤ := if 0 ≤ q then ⌊q⌋ else -⌊-q⌋

/-- One source formatted for the frontend (src/app.py:197-205). -/
structure AppSource where
  source_file : String
  article : String
  page : String
  page_number : String
  preview : String
  score : ℚ
  similarity_score : ℚ
deriving DecidableEq, Repr

/-- The similarity used by the chat endpoint (src/app.py:191-195): the
engine-provided similarity when present, otherwise the clamped affine
fallback computed from the distance (default 0.5). -/
def app_similarity (sim : Option ℚ) (dist : Option ℚ) : ℚ :=
  match sim with
  | some s => s
  | none => clampSim (dist.getD (1 / 2))

/-- Formatting of one Ollama source by the chat endpoint
(src/app.py:188-205). An Ollama source dict has no 'source' key, so
`source.get('source', 'anayasa.pdf')` always yields the default. -/
def format_source (s : OllamaSource) : AppSource :=
  { source_file := "anayasa.pdf"
    article := s.article_no
    page := s.page
    page_number := s.page
    preview := s.text_preview
    score := app_similarity (some s.similarity) (some s.distance)
    similarity_score := app_similarity (some s.similarity) (some s.distance) }

/-- The advisory message attached on low confidence (src/app.py:221). -/
def lowConfMsg : String := "Low confidence score. Try asking a more specific question."

/-- The JSON payload of the chat endpoint, with the HTTP status; keys absent
from a branch's `jsonify` dict are modelled as `none` / neutral values. -/
structure ChatOut where
  status : Nat
  response : String
  answer : String
  sources : List AppSource
  confidence : Option ℤ
  has_sources : Bool
  low_confidence : Bool
  warning : Option String
  error : Option String
deriving DecidableEq, Repr

/-- The `chat` endpoint (src/app.py:166-229): empty message → 400; an
exception from the engine (or anywhere in the handler) → a single structured
500 error payload; otherwise the grounded answer with formatted sources,
integer-percent confidence (average of the source scores, `int()`-truncated),
and the low-confidence flag and advisory exactly when that percentage is
below 50. No retry is attempted anywhere. -/
def chat (engineQ : String → Except String OllamaResult) (message : String) :
    ChatOut :=
  let msg := pyStrip message
  if msg = "" then
    { status := 400, response := "", answer := "", sources := [],
      confidence := none, has_sources := false, low_confidence := false,
      warning := none, error := some "Message is required" }
  else
    match engineQ msg with
    | .error e =>
      { status := 500, response := "Error processing request: " ++ e,
        answer := "", sources := [], confidence := none, has_sources := false,
        low_confidence := false, warning := none, error := some e }
    | .ok r =>
      let formatted := r.sources.map format_source
      let confidence : Option ℤ :=
        if formatted.isEmpty then none
        else some (pyInt ((formatted.map (fun s => s.score)).sum /
          (formatted.length : ℚ) * 100))
      let lowc := match confidence with
        | some c => decide (c < 50)
        | none => false
      { status := 200, response := r.answer, answer := r.answer,
        sources := formatted, confidence := confidence,
        has_sources := !formatted.isEmpty, low_confidence := lowc,
        warning := if lowc then some lowConfMsg else none, error := none }

/-- C7: if the similarity index returns zero entries for every expansion
variant (and the embedding provider works), `query` returns the fixed
no-grounding answer with an empty source list as a normal result — it is not
an exception, and the outcome does not depend on the generation provider at
all (the theorem holds even for a `gen` that always raises, so the
no-grounding path is distinct from a provider failure). -/
theorem claim_C7 {E : Type} (embed : String → Except String E)
    (collQ : E → Nat → List Hit) (gen : String → Except String String)
    (q : String) (topK : Nat)
    (hembed : ∀ s, ∃ v, embed s = .ok v)
    (hcoll : ∀ e n, collQ e n = []) :
    query_ollama embed collQ gen q topK =
      .ok { answer := noGroundingMsg, sources := [], query := q } := by
  have hcollect : ∀ qs, collect_hits embed collQ topK qs = .ok [] := by
    intro qs
    induction qs with
    | nil => rfl
    | cons a as ih =>
      unfold collect_hits
      obtain ⟨v, hv⟩ := hembed a
      rw [hv]
      show Except.bind (Except.ok v) _ = _
      simp only [Except.bind]
      rw [ih]
      show Except.bind (Except.ok []) _ = _
      simp only [Except.bind, hcoll]
      rfl
  unfold query_ollama retrieve_ollama
  rw [hcollect]
  show Except.bind (Except.bind (Except.ok []) _) _ = _
  simp only [Except.bind]
  simp [sortByKey, dedup_hits, List.take_nil]
  rfl

/-- Witness for C7: a concrete empty index with a failing generation
provider still yields the normal no-grounding payload. -/
theorem claim_C7_witness :
    query_ollama (fun s => Except.ok s) (fun _ _ => ([] : List Hit))
      (fun _ => Except.error "provider down") "soru" 5 =
      .ok { answer := noGroundingMsg, sources := [], query := "soru" } :=
  claim_C7 (fun s => Except.ok s) (fun _ _ => []) (fun _ => Except.error "provider down")
    "soru" 5 (fun s => ⟨s, rfl⟩) (fun _ _ => rfl)

/-- C8 counterexample: the claim says a generation-provider exception
propagates to the top of the query call and is surfaced as a structured
error, never degraded into a normal-looking answer. With one retrieved
chunk and a generation provider that raises "connection refused",
`LegalRAGEngineOllama.query` returns a NORMAL success payload whose answer
field is the text "Error generating answer: connection refused" with the
usual sources attached — the exception is swallowed inside `generate`
(src/query_engine_ollama.py:194-209) and does not propagate. -/
theorem claim_C8_counterexample :
    query_ollama (fun s => Except.ok s)
      (fun _ _ => [⟨"doc", ⟨"anayasa.pdf", "1", "76", "chunk_9"⟩, 2⟩])
      (fun _ => Except.error "connection refused") "soru" 5 =
    Except.ok
      { answer := "Error generating answer: connection refused"
        sources := [mk_source ⟨"doc", ⟨"anayasa.pdf", "1", "76", "chunk_9"⟩, 2⟩]
        query := "soru" } := rfl

/-- C8 (amended): embedding-provider exceptions do propagate out of the
query call (first conjunct: an embedding failure on the original query
variant aborts the whole query with that error), and the chat endpoint
converts any engine exception into a single structured 500 error payload
with no retry (second conjunct); but generation-provider exceptions are
caught inside `generate` and returned as an "Error generating answer: ..."
string in an otherwise normal success payload (third conjunct). -/
theorem claim_C8_amended :
    (∀ (E : Type) (embed : String → Except String E) (collQ : E → Nat → List Hit)
        (gen : String → Except String String) (q : String) (topK : Nat) (e : String),
      embed q = .error e → query_ollama embed collQ gen q topK = .error e) ∧
    (∀ (engineQ : String → Except String OllamaResult) (m e : String),
      pyStrip m ≠ "" → engineQ (pyStrip m) = .error e →
      chat engineQ m =
        { status := 500, response := "Error processing request: " ++ e,
          answer := "", sources := [], confidence := none, has_sources := false,
          low_confidence := false, warning := none, error := some e }) ∧
    (∀ (E : Type) (embed : String → Except String E) (collQ : E → Nat → List Hit)
        (gen : String → Except String String) (q : String) (topK : Nat)
        (hits : List Hit) (e : String),
      retrieve_ollama embed collQ q topK = .ok hits → hits ≠ [] →
      (∀ p, gen p = .error e) →
      query_ollama embed collQ gen q topK =
        .ok { answer := "Error generating answer: " ++ e,
              sources := hits.map mk_source, query := q }) := by
  refine ⟨?_, ?_, ?_⟩
  · intro E embed collQ gen q topK e he
    have hexp : ∃ rest, expanded_queries_ollama q = q :: rest := by
      unfold expanded_queries_ollama
      dsimp only
      split
      · exact ⟨_, rfl⟩
      · split
        · exact ⟨_, rfl⟩
        · exact ⟨_, rfl⟩
    obtain ⟨rest, hrest⟩ := hexp
    unfold query_ollama retrieve_ollama
    rw [hrest]
    unfold collect_hits
    rw [he]
    rfl
  · intro engineQ m e hm he
    unfold chat
    rw [if_neg hm, he]
  · intro E embed collQ gen q topK hits e hretr hne hgen
    unfold query_ollama
    rw [hretr]
    show Except.bind (Except.ok hits) _ = _
    simp only [Except.bind]
    rw [if_neg (by simpa [List.isEmpty_iff] using hne)]
    unfold generate_ollama
    rw [hgen]
    rfl

/-- Witness for the amended C8: a failing embedding provider aborts the
query with its error; the chat endpoint turns an engine error into the
single 500 payload; a failing generation provider yields a normal payload
with the error text as answer. -/
theorem claim_C8_amended_witness :
    query_ollama (E := String) (fun _ => Except.error "embed down")
        (fun _ _ => []) (fun p => Except.ok p) "soru" 5 =
      Except.error "embed down" ∧
    chat (fun _ => Except.error "engine down") "soru" =
      { status := 500, response := "Error processing request: engine down",
        answer := "", sources := [], confidence := none, has_sources := false,
        low_confidence := false, warning := none, error := some "engine down" } ∧
    query_ollama (fun s => Except.ok s)
        (fun _ _ => [⟨"doc", ⟨"anayasa.pdf", "1", "76", "chunk_9"⟩, 1⟩])
        (fun _ => Except.error "gen down") "soru" 5 =
      Except.ok
        { answer := "Error generating answer: gen down"
          sources := [mk_source ⟨"doc", ⟨"anayasa.pdf", "1", "76", "chunk_9"⟩, 1⟩]
          query := "soru" } :=
  ⟨claim_C8_amended.1 String _ _ _ "soru" 5 "embed down" rfl,
   claim_C8_amended.2.1 _ "soru" "engine down" (by decide) rfl,
   claim_C8_amended.2.2 String _ _ _ "soru" 5
     [⟨"doc", ⟨"anayasa.pdf", "1", "76", "chunk_9"⟩, 1⟩] "gen down"
     (by decide) (by decide) (fun p => rfl)⟩

theorem qe_merge_foldl_sim (P : QEEntry → Prop)
    (hP : ∀ h : QEHit, P (qe_entry h)) :
    ∀ (hits : List QEHit) (m : List QEEntry), (∀ e ∈ m, P e) →
      ∀ e ∈ hits.foldl qe_merge_step m, P e := by
  intro hits
  induction hits with
  | nil => intro m hm e he; exact hm e he
  | cons h hs ih =>
    intro m hm e he
    rw [List.foldl_cons] at he
    refine ih (qe_merge_step m h) ?_ e he
    intro e2 he2
    unfold qe_merge_step at he2
    split at he2
    · rcases List.mem_append.mp he2 with h1 | h2
      · exact hm e2 h1
      · have : e2 = qe_entry h := by simpa using h2
        subst this
        exact hP h
    · split at he2
      · rcases List.mem_map.mp he2 with ⟨e3, he3, heq⟩
        by_cases hid : e3.id = h.id
        · rw [if_pos hid] at heq
          subst heq
          exact hP h
        · rw [if_neg hid] at heq
          subst heq
          exact hm e3 he3
      · exact hm e2 he2

/-- C1 counterexample: the claim says the same affine mapping
`clamp(1 - d/2, 0, 1)` is used wherever a distance becomes a similarity.
But `LegalRAGEngine.retrieve` (src/query_engine.py:152) records
`similarity = 1 - distance`: merging a single hit at cosine distance 1
stores similarity 0, while the claimed mapping gives 0.5. -/
theorem claim_C1_counterexample :
    qe_merge [⟨"X", "doc", ⟨"anayasa.pdf", "1", "76", "chunk_0"⟩, 1⟩] =
      [qe_entry ⟨"X", "doc", ⟨"anayasa.pdf", "1", "76", "chunk_0"⟩, 1⟩] ∧
    (qe_entry ⟨"X", "doc", ⟨"anayasa.pdf", "1", "76", "chunk_0"⟩, 1⟩).similarity = 0 ∧
    clampSim 1 = 1 / 2 ∧ (0 : ℚ) ≠ 1 / 2 := by
  refine ⟨rfl, ?_, ?_, ?_⟩
  · show (1 : ℚ) - 1 = 0
    norm_num
  · show max 0 (min 1 (1 - 1 / 2)) = (1 : ℚ) / 2
    norm_num
  · norm_num

/-- C1 (amended): the Ollama query path reports, for every source of every
successful query, `similarity = clamp(1 - distance/2, 0, 1)` with the anchor
values 0 → 1, 1 → 0.5, 2 → 0, and on the cosine-distance range [0, 2] that
clamp coincides with the affine map `1 - d/2`; the chat endpoint's fallback
conversion uses the same mapping. The llama-cpp engine
(`LegalRAGEngine.retrieve`), however, attaches the unclamped `1 - distance`
to its merged entries. -/
theorem claim_C1_amended :
    (∀ (E : Type) (embed : String → Except String E) (collQ : E → Nat → List Hit)
        (gen : String → Except String String) (q : String) (topK : Nat)
        (out : OllamaResult),
      query_ollama embed collQ gen q topK = .ok out →
      ∀ s ∈ out.sources, s.similarity = clampSim s.distance) ∧
    (clampSim 0 = 1 ∧ clampSim 1 = 1 / 2 ∧ clampSim 2 = 0) ∧
    (∀ d : ℚ, 0 ≤ d → d ≤ 2 → clampSim d = 1 - d / 2) ∧
    (∀ d : ℚ, app_similarity none (some d) = clampSim d) ∧
    (∀ (hits : List QEHit), ∀ e ∈ qe_merge hits, e.similarity = 1 - e.distance) := by
  refine ⟨?_, ⟨?_, ?_, ?_⟩, ?_, ?_, ?_⟩
  · intro E embed collQ gen q topK out hout s hs
    unfold query_ollama at hout
    rcases hretr : retrieve_ollama embed collQ q topK with err | chunks
    · rw [hretr] at hout
      cases hout
    · rw [hretr] at hout
      replace hout : (if chunks.isEmpty then
          Except.ok { answer := noGroundingMsg, sources := [], query := q }
        else Except.ok
          { answer := generate_ollama gen q chunks,
            sources := chunks.map mk_source, query := q }) = Except.ok out := hout
      split at hout
      · injection hout with hout
        subst hout
        cases hs
      · injection hout with hout
        subst hout
        simp only at hs
        rcases List.mem_map.mp hs with ⟨h, -, rfl⟩
        rfl
  · show max 0 (min 1 (1 - 0 / 2)) = (1 : ℚ)
    norm_num
  · show max 0 (min 1 (1 - 1 / 2)) = (1 : ℚ) / 2
    norm_num
  · show max 0 (min 1 (1 - 2 / 2)) = (0 : ℚ)
    norm_num
  · intro d h0 h2
    unfold clampSim
    rw [min_eq_right (by linarith), max_eq_right (by linarith)]
  · intro d
    rfl
  · intro hits e he
    exact qe_merge_foldl_sim (fun e => e.similarity = 1 - e.distance)
      (fun h => rfl) hits [] (by intro e2 he2; cases he2) e he

/-- Witness for the amended C1: a concrete successful Ollama query whose
single source at distance 1 is reported with similarity clamp(1 - 1/2) = 1/2. -/
theorem claim_C1_amended_witness :
    (mk_source ⟨"doc", ⟨"anayasa.pdf", "1", "76", "chunk_9"⟩, 1⟩).similarity =
      clampSim (mk_source ⟨"doc", ⟨"anayasa.pdf", "1", "76", "chunk_9"⟩, 1⟩).distance :=
  claim_C1_amended.1 String (fun s => Except.ok s)
    (fun _ _ => [⟨"doc", ⟨"anayasa.pdf", "1", "76", "chunk_9"⟩, 1⟩])
    (fun p => Except.ok p) "soru" 5
    { answer := generate_ollama (fun p => Except.ok p) "soru"
        [⟨"doc", ⟨"anayasa.pdf", "1", "76", "chunk_9"⟩, 1⟩]
      sources := [mk_source ⟨"doc", ⟨"anayasa.pdf", "1", "76", "chunk_9"⟩, 1⟩]
      query := "soru" } rfl
    (mk_source ⟨"doc", ⟨"anayasa.pdf", "1", "76", "chunk_9"⟩, 1⟩)
    (List.mem_singleton.mpr rfl)

theorem chat_ok_spec (engineQ : String → Except String OllamaResult)
    (m : String) (r : OllamaResult)
    (hm : pyStrip m ≠ "") (he : engineQ (pyStrip m) = .ok r) :
    chat engineQ m =
      { status := 200, response := r.answer, answer := r.answer,
        sources := r.sources.map format_source,
        confidence := if r.sources.isEmpty then none
          else some (pyInt ((r.sources.map (fun s => s.similarity)).sum /
            (r.sources.length : ℚ) * 100)),
        has_sources := !r.sources.isEmpty,
        low_confidence := decide (¬r.sources.isEmpty ∧
          pyInt ((r.sources.map (fun s => s.similarity)).sum /
            (r.sources.length : ℚ) * 100) < 50),
        warning := if ¬r.sources.isEmpty ∧
            pyInt ((r.sources.map (fun s => s.similarity)).sum /
              (r.sources.length : ℚ) * 100) < 50 then some lowConfMsg else none,
        error := none } := by
  unfold chat
  rw [if_neg hm, he]
  have hscore : (r.sources.map format_source).map (fun s => s.score) =
      r.sources.map (fun s => s.similarity) := by
    rw [List.map_map]
    rfl
  have hlen : (r.sources.map format_source).length = r.sources.length :=
    List.length_map _ _
  have hemp : (r.sources.map format_source).isEmpty = r.sources.isEmpty := by
    cases r.sources <;> rfl
  dsimp only
  rw [hscore, hlen, hemp]
  by_cases hsrc : r.sources.isEmpty
  · simp [hsrc]
  · have hsrc2 : r.sources.isEmpty = false := Bool.eq_false_iff.mpr hsrc
    by_cases hlow : pyInt ((r.sources.map (fun s => s.similarity)).sum /
        (r.sources.length : ℚ) * 100) < 50
    · simp [hsrc2, hlow]
    · simp [hsrc2, hlow]

/-- A source stub with a given similarity score, for concrete checks of the
confidence computation. -/
def srcWithSim (q : ℚ) : OllamaSource :=
  { article_no := "76", page := "3", chunk_id := "chunk_0",
    text_preview := "t", distance := 0, similarity := q }

/-- C3: for every chat response produced from a successful engine query,
the reported confidence is the integer-percent truncation of the average of
the sources' similarity scores, the low-confidence flag holds exactly when
that percentage is below 50 and the advisory message is attached exactly
then; with no sources the confidence is `none` (not zero) and the flag is
off. In particular similarities [0.9, 0.9] give confidence 90 with the flag
off, and [0.2, 0.1] give 15 with the flag on. -/
theorem claim_C3 :
    (∀ (engineQ : String → Except String OllamaResult) (m : String)
        (r : OllamaResult),
      pyStrip m ≠ "" → engineQ (pyStrip m) = .ok r →
      ((chat engineQ m).confidence = if r.sources.isEmpty then none
          else some (pyInt ((r.sources.map (fun s => s.similarity)).sum /
            (r.sources.length : ℚ) * 100))) ∧
      ((chat engineQ m).low_confidence = true ↔
        ∃ c, (chat engineQ m).confidence = some c ∧ c < 50) ∧
      ((chat engineQ m).warning = some lowConfMsg ↔
        (chat engineQ m).low_confidence = true) ∧
      (r.sources = [] →
        (chat engineQ m).confidence = none ∧
          (chat engineQ m).low_confidence = false)) ∧
    ((chat (fun _ => .ok ⟨"ans", [srcWithSim (9/10), srcWithSim (9/10)], "q"⟩)
        "soru").confidence = some 90 ∧
      (chat (fun _ => .ok ⟨"ans", [srcWithSim (9/10), srcWithSim (9/10)], "q"⟩)
        "soru").low_confidence = false) ∧
    ((chat (fun _ => .ok ⟨"ans", [srcWithSim (2/10), srcWithSim (1/10)], "q"⟩)
        "soru").confidence = some 15 ∧
      (chat (fun _ => .ok ⟨"ans", [srcWithSim (2/10), srcWithSim (1/10)], "q"⟩)
        "soru").low_confidence = true) := by
  refine ⟨?_, ?_, ?_⟩
  · intro engineQ m r hm he
    rw [chat_ok_spec engineQ m r hm he]
    refine ⟨rfl, ?_, ?_, ?_⟩
    · cases hsrc : r.sources.isEmpty
      · simp only [hsrc]
        by_cases hlow : pyInt ((r.sources.map (fun s => s.similarity)).sum /
            (r.sources.length : ℚ) * 100) < 50
        · simp [hlow]
        · simp [hlow]
      · simp [hsrc]
    · cases hsrc : r.sources.isEmpty
      · simp only [hsrc]
        by_cases hlow : pyInt ((r.sources.map (fun s => s.similarity)).sum /
            (r.sources.length : ℚ) * 100) < 50
        · simp [hlow]
        · simp [hlow]
      · simp [hsrc]
    · intro hnil
      simp [hnil]
  · constructor
    · show some (pyInt (((9:ℚ)/10 + ((9:ℚ)/10 + 0)) / ((2:Nat) : ℚ) * 100)) = some 90
      have hv : pyInt (((9:ℚ)/10 + ((9:ℚ)/10 + 0)) / ((2:Nat) : ℚ) * 100) = 90 := by
        norm_num [pyInt]
      rw [hv]
    · show decide
          (pyInt (((9:ℚ)/10 + ((9:ℚ)/10 + 0)) / ((2:Nat) : ℚ) * 100) < 50) = false
      have hv : pyInt (((9:ℚ)/10 + ((9:ℚ)/10 + 0)) / ((2:Nat) : ℚ) * 100) = 90 := by
        norm_num [pyInt]
      rw [hv]
      rfl
  · constructor
    · show some (pyInt (((2:ℚ)/10 + ((1:ℚ)/10 + 0)) / ((2:Nat) : ℚ) * 100)) = some 15
      have hv : pyInt (((2:ℚ)/10 + ((1:ℚ)/10 + 0)) / ((2:Nat) : ℚ) * 100) = 15 := by
        norm_num [pyInt]
      rw [hv]
    · show decide
          (pyInt (((2:ℚ)/10 + ((1:ℚ)/10 + 0)) / ((2:Nat) : ℚ) * 100) < 50) = true
      have hv : pyInt (((2:ℚ)/10 + ((1:ℚ)/10 + 0)) / ((2:Nat) : ℚ) * 100) = 15 := by
        norm_num [pyInt]
      rw [hv]
      rfl

/-- Witness for C3: a successful query with no sources yields confidence
`none` (not zero) and no low-confidence flag. -/
theorem claim_C3_witness :
    (chat (fun _ => .ok ⟨"a", [], "q"⟩) "soru").confidence = none ∧
    (chat (fun _ => .ok ⟨"a", [], "q"⟩) "soru").low_confidence = false :=
  (claim_C3.1 (fun _ => .ok ⟨"a", ([] : List OllamaSource), "q"⟩) "soru"
    ⟨"a", [], "q"⟩ (by decide) rfl).2.2.2 rfl

theorem dedup_hits_filter (cid : String) :
    ∀ (hits : List Hit) (seen : List String),
      (dedup_hits hits seen).filter (fun h => h.meta.chunk_id = cid) =
        if cid ∈ seen then []
        else (hits.filter (fun h => h.meta.chunk_id = cid)).take 1 := by
  intro hits
  induction hits with
  | nil =>
    intro seen
    unfold dedup_hits
    simp only [List.filter_nil, List.take_nil]
    split <;> rfl
  | cons h hs ih =>
    intro seen
    unfold dedup_hits
    by_cases hseen : h.meta.chunk_id ∈ seen
    · rw [if_pos hseen, ih]
      by_cases hc : cid ∈ seen
      · rw [if_pos hc, if_pos hc]
      · have hne : ¬(h.meta.chunk_id = cid) := fun he => hc (he ▸ hseen)
        rw [if_neg hc, if_neg hc, List.filter_cons_of_neg (by simpa using hne)]
    · rw [if_neg hseen]
      by_cases hc2 : h.meta.chunk_id = cid
      · have hcs : ¬(cid ∈ seen) := fun hin => hseen (hc2 ▸ hin)
        rw [List.filter_cons_of_pos (by simpa using hc2), ih,
          if_pos (by rw [← hc2]; exact List.mem_cons_self _ _),
          List.filter_cons_of_pos (by simpa using hc2), if_neg hcs]
        rfl
      · rw [List.filter_cons_of_neg (by simpa using hc2), ih,
          List.filter_cons_of_neg (by simpa using hc2)]
        by_cases hc : cid ∈ seen
        · rw [if_pos hc, if_pos (List.mem_cons_of_mem _ hc)]
        · have : ¬(cid ∈ h.meta.chunk_id :: seen) := by
            intro hin
            rcases List.mem_cons.mp hin with he | hin2
            · exact hc2 he.symm
            · exact hc hin2
          rw [if_neg hc, if_neg this]

theorem insertByKey_filter_length {H : Type} (key : H → ℚ) (p : H → Bool)
    (h : H) : ∀ l : List H,
      ((insertByKey key h l).filter p).length =
        (l.filter p).length + (if p h then 1 else 0) := by
  intro l
  induction l with
  | nil =>
    unfold insertByKey
    cases hp : p h <;> simp [hp]
  | cons h2 hs ih =>
    unfold insertByKey
    by_cases hlt : key h < key h2
    · rw [if_pos hlt]
      cases hp : p h <;> cases hp2 : p h2 <;>
        simp [List.filter_cons, hp, hp2, Nat.add_comm, Nat.add_assoc, Nat.add_left_comm]
    · rw [if_neg hlt]
      cases hp2 : p h2 <;>
        simp [List.filter_cons, hp2, ih, Nat.add_comm, Nat.add_assoc, Nat.add_left_comm]

theorem sortByKey_filter_length {H : Type} (key : H → ℚ) (p : H → Bool) :
    ∀ l : List H, ((sortByKey key l).filter p).length = (l.filter p).length := by
  intro l
  induction l with
  | nil => rfl
  | cons h hs ih =>
    unfold sortByKey
    rw [insertByKey_filter_length, ih]
    cases hp : p h <;> simp [List.filter_cons, hp]

/-- Combine an optional best distance with another (left/right-biased min). -/
def combMin : Option ℚ → Option ℚ → Option ℚ
  | none, b => b
  | some x, none => some x
  | some x, some y => some (min x y)

/-- The minimum of a list of rationals, `none` on the empty list. -/
def minQ? : List ℚ → Option ℚ
  | [] => none
  | x :: xs => combMin (some x) (minQ? xs)

theorem combMin_none_right : ∀ a : Option ℚ, combMin a none = a := by
  intro a; cases a <;> rfl

theorem combMin_assoc (a b c : Option ℚ) :
    combMin (combMin a b) c = combMin a (combMin b c) := by
  cases a <;> cases b <;> cases c <;> simp [combMin, min_assoc]

theorem find?_map_replace_ne (h : QEHit) (cid : String) (hne : ¬h.id = cid) :
    ∀ m : List QEEntry,
      (m.map (fun e2 => if e2.id = h.id then qe_entry h else e2)).find?
          (fun e => e.id = cid) =
        m.find? (fun e => e.id = cid) := by
  intro m
  induction m with
  | nil => rfl
  | cons e m ih =>
    rw [List.map_cons, List.find?_cons, List.find?_cons]
    by_cases hid : e.id = h.id
    · rw [if_pos hid]
      have h1 : ((qe_entry h).id = cid) = (e.id = cid) := by
        show (h.id = cid) = (e.id = cid)
        rw [hid]
      have h2 : (decide ((qe_entry h).id = cid)) = false := by
        simp [qe_entry, hne]
      have h3 : (decide (e.id = cid)) = false := by
        simp [hid, hne]
      rw [h2, h3]
      exact ih
    · rw [if_neg hid]
      cases hd : decide (e.id = cid)
      · exact ih
      · rfl

theorem find?_map_replace_eq (h : QEHit) (hid : h.id = cid) :
    ∀ m : List QEEntry,
      (m.map (fun e2 => if e2.id = h.id then qe_entry h else e2)).find?
          (fun e => e.id = cid) =
        (m.find? (fun e => e.id = cid)).map (fun _ => qe_entry h) := by
  intro m
  induction m with
  | nil => rfl
  | cons e m ih =>
    rw [List.map_cons, List.find?_cons, List.find?_cons]
    by_cases heid : e.id = cid
    · have h1 : e.id = h.id := by rw [heid, hid]
      rw [if_pos h1]
      have h2 : (decide ((qe_entry h).id = cid)) = true := by
        simp [qe_entry, hid]
      have h3 : (decide (e.id = cid)) = true := by simp [heid]
      rw [h2, h3]
      rfl
    · have h1 : ¬e.id = h.id := fun he => heid (by rw [he, hid])
      rw [if_neg h1]
      have h3 : (decide (e.id = cid)) = false := by simp [heid]
      rw [h3]
      exact ih

theorem qe_merge_step_find_dist (m : List QEEntry) (h : QEHit) (cid : String) :
    ((qe_merge_step m h).find? (fun e => e.id = cid)).map (fun e => e.distance) =
      if h.id = cid then
        combMin ((m.find? (fun e => e.id = cid)).map (fun e => e.distance))
          (some h.distance)
      else ((m.find? (fun e => e.id = cid)).map (fun e => e.distance)) := by
  unfold qe_merge_step
  by_cases hid : h.id = cid
  · rw [if_pos hid]
    cases hf : m.find? (fun e => e.id = h.id) with
    | none =>
      have hf2 : m.find? (fun e => e.id = cid) = none := by rw [← hid]; exact hf
      rw [List.find?_append, hf2]
      simp only [Option.none_or, Option.map_none, combMin]
      rw [List.find?_cons]
      have : (decide ((qe_entry h).id = cid)) = true := by simp [qe_entry, hid]
      rw [this]
      rfl
    | some e =>
      dsimp only
      have hf2 : m.find? (fun e => e.id = cid) = some e := by rw [← hid]; exact hf
      by_cases hlt : h.distance < e.distance
      · rw [if_pos hlt, find?_map_replace_eq h hid m, hf2]
        simp only [Option.map_map, Option.map_some, combMin]
        show some h.distance = some (min e.distance h.distance)
        rw [min_eq_right (le_of_lt hlt)]
      · rw [if_neg hlt, hf2]
        show some e.distance = combMin (some e.distance) (some h.distance)
        show some e.distance = some (min e.distance h.distance)
        rw [min_eq_left (le_of_not_lt hlt)]
  · rw [if_neg hid]
    cases hf : m.find? (fun e => e.id = h.id) with
    | none =>
      rw [List.find?_append]
      cases hf2 : m.find? (fun e => e.id = cid) with
      | none =>
        simp only [hf2, Option.none_or]
        rw [List.find?_cons]
        have : (decide ((qe_entry h).id = cid)) = false := by simp [qe_entry, hid]
        rw [this]
        rfl
      | some e => simp [hf2]
    | some e =>
      dsimp only
      by_cases hlt : h.distance < e.distance
      · rw [if_pos hlt, find?_map_replace_ne h cid hid m]
      · rw [if_neg hlt]

theorem qe_merge_foldl_find_min (cid : String) :
    ∀ (hits : List QEHit) (m : List QEEntry),
      ((hits.foldl qe_merge_step m).find? (fun e => e.id = cid)).map
          (fun e => e.distance) =
        combMin ((m.find? (fun e => e.id = cid)).map (fun e => e.distance))
          (minQ? ((hits.filter (fun h => h.id = cid)).map (fun h => h.distance))) := by
  intro hits
  induction hits with
  | nil =>
    intro m
    simp only [List.foldl_nil, List.filter_nil, List.map_nil]
    rw [show minQ? [] = none from rfl, combMin_none_right]
  | cons h hs ih =>
    intro m
    rw [List.foldl_cons, ih (qe_merge_step m h)]
    rw [qe_merge_step_find_dist m h cid]
    by_cases hid : h.id = cid
    · rw [if_pos hid, List.filter_cons_of_pos (by simpa using hid), List.map_cons]
      rw [show minQ? (h.distance :: ((hs.filter (fun h => h.id = cid)).map
        (fun h => h.distance))) = combMin (some h.distance)
          (minQ? ((hs.filter (fun h => h.id = cid)).map (fun h => h.distance)))
        from rfl]
      rw [combMin_assoc]
    · rw [if_neg hid, List.filter_cons_of_neg (by simpa using hid)]

theorem filter_map_replace_length (h : QEHit) (cid : String) :
    ∀ m : List QEEntry,
      ((m.map (fun e2 => if e2.id = h.id then qe_entry h else e2)).filter
          (fun e => e.id = cid)).length =
        (m.filter (fun e => e.id = cid)).length := by
  intro m
  induction m with
  | nil => rfl
  | cons e m ih =>
    rw [List.map_cons]
    by_cases hid : e.id = h.id
    · rw [if_pos hid]
      by_cases hc : e.id = cid
      · have hc2 : (qe_entry h).id = cid := by show h.id = cid; rw [← hid]; exact hc
        rw [List.filter_cons_of_pos (by simpa using hc2),
          List.filter_cons_of_pos (by simpa using hc)]
        simp [ih]
      · have hc2 : ¬(qe_entry h).id = cid := by
          show ¬h.id = cid; rw [← hid]; exact hc
        rw [List.filter_cons_of_neg (by simpa using hc2),
          List.filter_cons_of_neg (by simpa using hc)]
        exact ih
    · rw [if_neg hid]
      by_cases hc : e.id = cid
      · rw [List.filter_cons_of_pos (by simpa using hc),
          List.filter_cons_of_pos (by simpa using hc)]
        simp [ih]
      · rw [List.filter_cons_of_neg (by simpa using hc),
          List.filter_cons_of_neg (by simpa using hc)]
        exact ih

theorem qe_merge_step_filter_le (m : List QEEntry) (h : QEHit) (cid : String)
    (hm : (m.filter (fun e => e.id = cid)).length ≤ 1) :
    ((qe_merge_step m h).filter (fun e => e.id = cid)).length ≤ 1 := by
  unfold qe_merge_step
  cases hf : m.find? (fun e => e.id = h.id) with
  | none =>
    dsimp only
    rw [List.filter_append]
    by_cases hc : h.id = cid
    · have hnone : m.filter (fun e => e.id = cid) = [] := by
        rw [List.filter_eq_nil_iff]
        intro e he hpe
        have := List.find?_eq_none.mp hf e he
        simp only [decide_eq_true_eq] at this hpe
        exact this (by rw [hpe, ← hc])
      rw [hnone]
      have : ([qe_entry h].filter (fun e => e.id = cid)).length ≤ 1 := by
        rw [show [qe_entry h] = qe_entry h :: [] from rfl]
        by_cases hq : (qe_entry h).id = cid
        · rw [List.filter_cons_of_pos (by simpa using hq)]
          simp
        · rw [List.filter_cons_of_neg (by simpa using hq)]
          simp
      simpa using this
    · have : [qe_entry h].filter (fun e => e.id = cid) = [] := by
        rw [List.filter_eq_nil_iff]
        intro e he hpe
        have he2 : e = qe_entry h := by simpa using he
        subst he2
        simp only [decide_eq_true_eq] at hpe
        exact hc hpe
      rw [this, List.append_nil]
      exact hm
  | some e =>
    dsimp only
    by_cases hlt : h.distance < e.distance
    · rw [if_pos hlt, filter_map_replace_length]
      exact hm
    · rw [if_neg hlt]
      exact hm

theorem qe_merge_foldl_filter_le (cid : String) :
    ∀ (hits : List QEHit) (m : List QEEntry),
      (m.filter (fun e => e.id = cid)).length ≤ 1 →
      (((hits.foldl qe_merge_step m).filter (fun e => e.id = cid)).length ≤ 1) := by
  intro hits
  induction hits with
  | nil => intro m hm; exact hm
  | cons h hs ih =>
    intro m hm
    rw [List.foldl_cons]
    exact ih (qe_merge_step m h) (qe_merge_step_filter_le m h cid hm)

/-- C2 counterexample: the claim says a chunk retrieved by several expansion
variants is kept with the smallest of its distances. In the Ollama engine the
query "milletvekili seçilme yaşı" expands to itself plus
"MADDE 76 seçilme yeterliliği"; with an index that returns the same chunk
(chunk_id "chunk_9") at distance 2 for the first variant and distance 1 for
the second, `retrieve` returns the chunk once but carrying distance 2 — the
first-seen distance, not the minimum 1 — because `seen_ids` drops the
later, better occurrence (src/query_engine_ollama.py:137-145). -/
theorem claim_C2_counterexample :
    retrieve_ollama (fun s => Except.ok s)
      (fun e _ => if e = "milletvekili seçilme yaşı" then
          [⟨"doc", ⟨"a", "1", "76", "chunk_9"⟩, 2⟩]
        else if e = "MADDE 76 seçilme yeterliliği" then
          [⟨"docB", ⟨"a", "1", "76", "chunk_9"⟩, 1⟩]
        else []) "milletvekili seçilme yaşı" 5 =
      .ok [⟨"doc", ⟨"a", "1", "76", "chunk_9"⟩, 2⟩] ∧ (2 : ℚ) ≠ 1 := by
  refine ⟨by decide, by norm_num⟩

/-- C2 (amended): both retrievers keep each chunk identity exactly once in
the merged result, but they differ on which distance survives. The Ollama
engine keeps the FIRST retrieved occurrence (the filter of its merged list
is the one-element prefix of the occurrences, so the recorded distance is
the first variant's, not the minimum), and its final output still contains
each chunk id at most once. The llama-cpp engine (`LegalRAGEngine.retrieve`)
keeps, for every entry id, exactly the minimum of the distances with which
it was retrieved. -/
theorem claim_C2_amended :
    (∀ (hits : List Hit) (cid : String),
      (dedup_hits hits []).filter (fun h => h.meta.chunk_id = cid) =
        (hits.filter (fun h => h.meta.chunk_id = cid)).take 1) ∧
    (∀ (E : Type) (embed : String → Except String E)
        (collQ : E → Nat → List Hit) (q : String) (topK : Nat) (out : List Hit),
      retrieve_ollama embed collQ q topK = .ok out →
      ∀ cid, (out.filter (fun h => h.meta.chunk_id = cid)).length ≤ 1) ∧
    (∀ (hits : List QEHit) (cid : String),
      ((qe_merge hits).find? (fun e => e.id = cid)).map (fun e => e.distance) =
        minQ? ((hits.filter (fun h => h.id = cid)).map (fun h => h.distance))) ∧
    (∀ (hits : List QEHit) (cid : String),
      ((qe_merge hits).filter (fun e => e.id = cid)).length ≤ 1) := by
  refine ⟨?_, ?_, ?_, ?_⟩
  · intro hits cid
    rw [dedup_hits_filter cid hits [], if_neg (List.not_mem_nil cid)]
  · intro E embed collQ q topK out hout cid
    unfold retrieve_ollama at hout
    rcases hc : collect_hits embed collQ topK (expanded_queries_ollama q)
      with err | all
    · rw [hc] at hout
      cases hout
    · rw [hc] at hout
      replace hout : Except.ok ((sortByKey (fun h => h.distance)
          (dedup_hits all [])).take topK) = Except.ok out := hout
      injection hout with hout
      subst hout
      calc (((sortByKey (fun h => h.distance) (dedup_hits all [])).take
            topK).filter (fun h => h.meta.chunk_id = cid)).length
          ≤ ((sortByKey (fun h => h.distance) (dedup_hits all [])).filter
            (fun h => h.meta.chunk_id = cid)).length :=
            ((List.take_sublist _ _).filter _).length_le
        _ = ((dedup_hits all []).filter (fun h => h.meta.chunk_id = cid)).length :=
            sortByKey_filter_length _ _ _
        _ = ((all.filter (fun h => h.meta.chunk_id = cid)).take 1).length := by
            rw [dedup_hits_filter cid all [], if_neg (List.not_mem_nil cid)]
        _ ≤ 1 := List.length_take_le 1 _
  · intro hits cid
    unfold qe_merge
    rw [qe_merge_foldl_find_min cid hits []]
    rfl
  · intro hits cid
    unfold qe_merge
    exact qe_merge_foldl_filter_le cid hits [] (by simp)

/-- Witness for the amended C2: a concrete single-variant retrieval whose
output contains the chunk id "chunk_9" exactly once. -/
theorem claim_C2_amended_witness :
    ((([⟨"doc", ⟨"a", "1", "76", "chunk_9"⟩, (2 : ℚ)⟩] : List Hit)).filter
        (fun h => h.meta.chunk_id = "chunk_9")).length ≤ 1 :=
  claim_C2_amended.2.1 String (fun s => Except.ok s)
    (fun _ _ => [⟨"doc", ⟨"a", "1", "76", "chunk_9"⟩, 2⟩]) "soru" 5
    [⟨"doc", ⟨"a", "1", "76", "chunk_9"⟩, 2⟩] (by decide) "chunk_9"

/-! ### Indexing identifiers (src/indexing.py, VectorDBIndexer.index_chunks) -/

/-- Python's decimal rendering of a natural number (as in `str(n)` and
f-strings): most significant digit first, "0" for 0. -/
def natDigits (n : Nat) : List Char :=
  if n < 10 then [Nat.digitChar n]
  else natDigits (n / 10) ++ [Nat.digitChar (n % 10)]
termination_by n
decreasing_by
  exact Nat.div_lt_self (by omega) (by omega)

/-- Numeric value of a decimal digit character. -/
def digitVal (c : Char) : Nat := c.toNat - 48

/-- Parse a decimal digit string back to its value (left inverse of
`natDigits`). -/
def parseNat (l : List Char) : Nat := l.foldl (fun acc c => acc * 10 + digitVal c) 0

theorem parseNat_append_digit (xs : List Char) (c : Char) :
    parseNat (xs ++ [c]) = parseNat xs * 10 + digitVal c := by
  unfold parseNat
  rw [List.foldl_append]
  rfl

theorem digitVal_digitChar : ∀ d < 10, digitVal (Nat.digitChar d) = d := by decide

theorem parseNat_natDigits : ∀ n, parseNat (natDigits n) = n := by
  intro n
  induction n using Nat.strong_induction_on with
  | _ n ih =>
    unfold natDigits
    split
    case isTrue h =>
      show parseNat [Nat.digitChar n] = n
      unfold parseNat
      simp only [List.foldl_cons, List.foldl_nil, Nat.zero_mul, Nat.zero_add]
      exact digitVal_digitChar n h
    case isFalse h =>
      rw [parseNat_append_digit,
        ih (n / 10) (Nat.div_lt_self (by omega) (by omega)),
        digitVal_digitChar _ (Nat.mod_lt n (by omega))]
      omega

theorem natDigits_injective : Function.Injective natDigits := by
  intro a b h
  have := congrArg parseNat h
  rwa [parseNat_natDigits, parseNat_natDigits] at this

/-- The identifier assigned to the chunk at offset `n`:
`f"chunk_{existing_count + i}"` (src/indexing.py:176). -/
def chunk_id_str (n : Nat) : String := String.mk ("chunk_".data ++ natDigits n)

theorem chunk_id_str_injective : Function.Injective chunk_id_str := by
  intro a b h
  unfold chunk_id_str at h
  injection h with h
  exact natDigits_injective (List.append_cancel_left h)

/-- The identifiers assigned in one indexing run over `n` chunks, offset by
the index's entry count at the start of the run (src/indexing.py:164-177). -/
def runIds (existing n : Nat) : List String :=
  (List.range n).map (fun i => chunk_id_str (existing + i))

/-- The identifiers stored after one `index_chunks` run: with
`overwrite=True` the collection is deleted first
(src/indexing.py:96-98,162-205), then the `n` new identifiers are appended
after the surviving ones. -/
def index_chunks_ids (stored : List String) (overwrite : Bool) (n : Nat) :
    List String :=
  let s0 := if overwrite then [] else stored
  s0 ++ runIds s0.length n

/-- The index states reachable by indexing runs from an empty store. -/
inductive ReachableIndex : List String → Prop where
  | empty : ReachableIndex []
  | run (s : List String) (ow : Bool) (n : Nat) :
      ReachableIndex s → ReachableIndex (index_chunks_ids s ow n)

theorem runIds_append (a b : Nat) :
    runIds 0 a ++ runIds a b = runIds 0 (a + b) := by
  unfold runIds
  rw [List.range_add, List.map_append, List.map_map]
  congr 1
  apply List.map_congr_left
  intro i _
  show chunk_id_str (a + i) = chunk_id_str (0 + (a + i))
  rw [Nat.zero_add]

theorem runIds_length (e n : Nat) : (runIds e n).length = n := by
  unfold runIds
  rw [List.length_map, List.length_range]

theorem reachable_canonical (s : List String) (hs : ReachableIndex s) :
    s = runIds 0 s.length := by
  induction hs with
  | empty => rfl
  | run s2 ow n _ ih =>
    unfold index_chunks_ids
    by_cases how : ow = true
    · dsimp only
      rw [if_pos how]
      rw [List.nil_append, List.length_nil]
      show runIds 0 n = runIds 0 (runIds 0 n).length
      rw [runIds_length]
    · dsimp only
      rw [if_neg how]
      rw [List.length_append, runIds_length]
      conv_lhs => rw [ih, runIds_length]
      rw [runIds_append]

/-- C9: within one indexing run the `n` freshly assigned identifiers
`chunk_{count}` … `chunk_{count+n-1}` are pairwise distinct, and when
appending to an index reachable by previous runs (with the overwrite flag
handled first, as the code does) none of them collides with an identifier
already stored — because fresh identifiers are offset by the index's entry
count at the start of the run. -/
theorem claim_C9 (s : List String) (hs : ReachableIndex s) (ow : Bool) (n : Nat) :
    (runIds (if ow then [] else s).length n).Nodup ∧
      ∀ idStr ∈ runIds (if ow then [] else s).length n,
        idStr ∉ (if ow then [] else s) := by
  have hinj : ∀ e : Nat, Function.Injective (fun i => chunk_id_str (e + i)) := by
    intro e a b h
    have := chunk_id_str_injective h
    omega
  constructor
  · exact (List.nodup_range n).map (hinj _)
  · intro idStr hid hmem
    have hs0 : (if ow then [] else s) = runIds 0 (if ow then [] else s).length := by
      by_cases how : ow = true
      · rw [if_pos how]
        rfl
      · rw [if_neg how]
        exact reachable_canonical s hs
    rw [hs0] at hmem
    unfold runIds at hid hmem
    rcases List.mem_map.mp hid with ⟨i, hi, rfl⟩
    rcases List.mem_map.mp hmem with ⟨j, hj, hj2⟩
    have hji := chunk_id_str_injective hj2
    rw [List.mem_range] at hi hj
    omega

/-- Witness for C9: after one run of two chunks from the empty index,
appending two more chunks assigns identifiers that are distinct and disjoint
from the stored ones. -/
theorem claim_C9_witness :
    (runIds (if false then [] else index_chunks_ids [] false 2).length 2).Nodup ∧
      ∀ idStr ∈ runIds (if false then [] else index_chunks_ids [] false 2).length 2,
        idStr ∉ (if false then [] else index_chunks_ids [] false 2) :=
  claim_C9 (index_chunks_ids [] false 2)
    (ReachableIndex.run [] false 2 ReachableIndex.empty) false 2

/-! ### Metadata enrichment (src/chunking.py, LegalChunker.enrich_metadata) -/

/-- The metadata dictionary of a `Document` as used by the chunking pipeline
(src/chunking.py): every key the code reads or writes, each optional because
Python only adds keys as it goes. -/
structure ChunkMeta where
  source : Option String
  page : Option Nat
  article_no : Option String
  article_numbers : Option String
  multi_article : Option Bool
  chunk_id : Option Nat
  summary : Option String
deriving DecidableEq, Repr

/-- The `Document` data class (src/chunking.py:30-41). -/
structure Document where
  page_content : String
  metadata : ChunkMeta
deriving DecidableEq, Repr

/-- `Path(s).name`: the component after the last path separator. -/
def basename (s : String) : String :=
  String.mk ((s.data.reverse.takeWhile
    (fun c => !(c = '/') && !(c = '\\'))).reverse)

/-- `page_content[:100].replace("\n", " ")` (src/chunking.py:312). -/
def first100 (s : String) : String :=
  String.mk ((s.data.take 100).map (fun c => if c = '\n' then ' ' else c))

/-- `",".join(...)` (src/chunking.py:307). -/
def joinComma (l : List String) : String := String.intercalate "," l

/-- The enrichment of one chunk at position `i`
(src/chunking.py:292-312): normalize the source filename when present,
set the primary article number when any was extracted (plus the full list
and the multi-article flag when more than one), and always set the
sequential chunk_id and the flattened 100-character summary. The text
(`page_content`) is never touched. -/
def enrich_one (i : Nat) (c : Document) : Document :=
  let m0 := c.metadata
  let m1 := match m0.source with
    | some src => { m0 with source := some (basename src) }
    | none => m0
  let nums := extract_article_numbers c.page_content.data
  let m2 := match nums with
    | [] => m1
    | n0 :: restNums =>
      let mA := { m1 with article_no := some n0 }
      if restNums.isEmpty then mA
      else { mA with
        article_numbers := some (joinComma nums)
        multi_article := some true }
  { page_content := c.page_content
    metadata := { m2 with chunk_id := some i, summary := some (first100 c.page_content) } }

/-- `LegalChunker.enrich_metadata` (src/chunking.py:282-314): enrich every
chunk with its `enumerate` position. -/
def enrich_metadata (chunks : List Document) : List Document :=
  chunks.enum.map (fun p => enrich_one p.1 p.2)

theorem enrich_one_page_content (i : Nat) (c : Document) :
    (enrich_one i c).page_content = c.page_content := rfl

theorem enrich_one_page (i : Nat) (c : Document) :
    (enrich_one i c).metadata.page = c.metadata.page := by
  unfold enrich_one
  dsimp only
  cases c.metadata.source <;>
    cases extract_article_numbers c.page_content.data <;>
    first
      | rfl
      | (dsimp only; split <;> rfl)

theorem forall2_enrich_enumFrom :
    ∀ (l : List Document) (k : Nat),
      List.Forall₂ (fun a b => b.page_content = a.page_content ∧
          b.metadata.page = a.metadata.page)
        l ((List.enumFrom k l).map (fun p => enrich_one p.1 p.2)) := by
  intro l
  induction l with
  | nil => intro k; exact List.Forall₂.nil
  | cons c cs ih =>
    intro k
    rw [List.enumFrom_cons, List.map_cons]
    exact List.Forall₂.cons
      ⟨enrich_one_page_content k c, enrich_one_page k c⟩ (ih (k + 1))

/-- C10: metadata enrichment returns a list of the same length with the
chunks in the same order, leaving every chunk's text (`page_content`) — and
its untouched metadata such as the page number — unchanged; it only adds or
normalizes the source, article-number, chunk_id and summary fields. -/
theorem claim_C10 (chunks : List Document) :
    (enrich_metadata chunks).length = chunks.length ∧
      List.Forall₂ (fun a b => b.page_content = a.page_content ∧
          b.metadata.page = a.metadata.page)
        chunks (enrich_metadata chunks) := by
  have h := forall2_enrich_enumFrom chunks 0
  refine ⟨?_, h⟩
  have hlen := List.Forall₂.length_eq h
  exact hlen.symm
